import Mathlib

/-!
# github-repo-visualizer: the sync cycle of `src/server.js`

A shallow embedding of `fetchAndCacheRepos` and `getRateLimit` (`src/server.js`)
and of the bootstrap routine of `src/scripts/initialFetch.js`, followed by the
properties of the cycle: quota gate, watermark, pagination, delta merge,
persistence.

Conventions of the embedding.

* A repository object is a `Repo`: the eighteen properties `normalize` copies,
  plus `extras`, every other property the object carries (a raw GitHub record
  has many, `normalize` drops them).
* `null` and `undefined` are `none`; `NaN` as the result of `Date.parse` is `none`.
* The cache file `DATA_FILE` is explicit state, `Option CacheFile`.
* What the function obtains from outside is the `Env`: `Date.parse`, the
  configured buffer, the answer of the rate-limit endpoint, the answer of the
  repository endpoint for each page number, and the clock.
* The `while (!done)` loop is `pageLoop`, recursive on a fuel argument; when
  the fuel runs out the loop is reported as still `running`.
-/

namespace RepoVisualizer

/-! ## Data model -/

/-- A repository object, as returned by the remote API or as stored in the cache. -/
structure Repo where
  id : Nat
  name : String
  full_name : String
  description : Option String
  language : Option String
  stargazers_count : Nat
  forks_count : Nat
  updated_at : Option String
  pushed_at : Option String
  size : Nat
  isPrivate : Bool
  fork : Bool
  html_url : String
  clone_url : String
  topics : List String
  archived : Bool
  disabled : Bool
  visibility : String
  extras : List (String × String)
deriving DecidableEq, Repr

/-- The payload written to `DATA_FILE` (`server.js` lines 140-144). -/
structure Snapshot where
  repositories : List Repo
  last_updated : String
  total_count : Nat
deriving DecidableEq, Repr

/-- Content of `DATA_FILE` when it exists, as `JSON.parse` sees it. -/
inductive CacheFile where
  /-- The content on which `JSON.parse` throws. -/
  | corrupt : CacheFile
  /-- The content parses, but the value has no `repositories` array. -/
  | noArray : CacheFile
  /-- The content parses to an object with a `repositories` array. -/
  | snapshot : Snapshot → CacheFile
deriving DecidableEq, Repr

/-- The object built by `getRateLimit` (`server.js` line 154). -/
structure RateStatus where
  limit : Nat
  remaining : Nat
  reset : Nat
deriving DecidableEq, Repr

/-- A JavaScript number, as far as the quota test needs it. -/
inductive JsNum where
  | nan : JsNum
  | negInf : JsNum
  | fin : ℚ → JsNum
  | posInf : JsNum
deriving DecidableEq

/-- What `fetchAndCacheRepos` obtains from outside itself. -/
structure Env where
  /-- The host function `Date.parse` on a string; `none` is `NaN`. -/
  parse : String → Option Int
  /-- Rounding of an exact quotient to the nearest double. -/
  toDouble : ℚ → ℚ
  /-- The constant `RATE_LIMIT_BUFFER` (`server.js` line 17). -/
  buffer : JsNum
  /-- The `resources.core` of the answer of the rate-limit endpoint; `none` when the request throws. -/
  rateAnswer : Option RateStatus
  /-- The `data` of the answer for page `n` of the repository endpoint; `none` when the request throws. -/
  pages : Nat → Option (List Repo)
  /-- The value of `new Date().toISOString()` at the time of the write. -/
  now : String

/-! ## Rate limit -/

/-- The function `getRateLimit` (`server.js` lines 150-158). -/
def getRateLimit (env : Env) : Option RateStatus :=
  match env.rateAnswer with
  | some core => some { limit := core.limit, remaining := core.remaining, reset := core.reset }
  | none => none

/-- JavaScript `a / b` on two non-negative integers. -/
def jsDiv (toDouble : ℚ → ℚ) (a b : Nat) : JsNum :=
  if b = 0 then (if a = 0 then JsNum.nan else JsNum.posInf)
  else JsNum.fin (toDouble ((a : ℚ) / (b : ℚ)))

/-- JavaScript `x < y`. -/
def jsLt : JsNum → JsNum → Bool
  | JsNum.nan, _ => false
  | _, JsNum.nan => false
  | JsNum.negInf, JsNum.negInf => false
  | JsNum.negInf, _ => true
  | JsNum.fin _, JsNum.negInf => false
  | JsNum.fin a, JsNum.fin b => decide (a < b)
  | JsNum.fin _, JsNum.posInf => true
  | JsNum.posInf, _ => false

/-- JavaScript `x >= y`. -/
def jsGe : JsNum → JsNum → Bool
  | JsNum.nan, _ => false
  | _, JsNum.nan => false
  | JsNum.posInf, _ => true
  | JsNum.fin _, JsNum.posInf => false
  | JsNum.fin a, JsNum.fin b => decide (b ≤ a)
  | JsNum.fin _, JsNum.negInf => true
  | JsNum.negInf, JsNum.negInf => true
  | JsNum.negInf, _ => false

/-- The test of `server.js` line 64: `rate && rate.remaining / rate.limit < RATE_LIMIT_BUFFER`. -/
def bufferReached (env : Env) (rate : Option RateStatus) : Bool :=
  match rate with
  | some r => jsLt (jsDiv env.toDouble r.remaining r.limit) env.buffer
  | none => false

/-! ## Watermark -/

/-- JavaScript truthiness of a string-or-null property. -/
def truthyStr : Option String → Bool
  | some s => decide (s ≠ "")
  | none => false

/-- The string handed to `Date.parse`: `r.updated_at || r.pushed_at || 0`. -/
def activityArg (r : Repo) : String :=
  if truthyStr r.updated_at then r.updated_at.getD ""
  else if truthyStr r.pushed_at then r.pushed_at.getD ""
  else "0"

/-- The value `Date.parse(r.updated_at || r.pushed_at || 0)`. -/
def activityTs (parse : String → Option Int) (r : Repo) : Option Int :=
  parse (activityArg r)

/-- The reducer of `server.js` lines 75-78. -/
def watermarkStep (parse : String → Option Int) (acc : Int) (r : Repo) : Int :=
  match activityTs parse r with
  | none => acc
  | some t => max acc t

/-- The value `existing.repositories.reduce(..., 0)` (`server.js` lines 75-78). -/
def reduceWatermark (parse : String → Option Int) (repos : List Repo) : Int :=
  repos.foldl (watermarkStep parse) 0

/-- The `repositories` array of `existing`, when `existing` is set and has one
(`server.js` lines 71-74 and 129). -/
def existingRepositories : Option CacheFile → Option (List Repo)
  | some (CacheFile.snapshot s) => some s.repositories
  | some CacheFile.noArray => none
  | some CacheFile.corrupt => none
  | none => none

/-- The variable `lastKnownUpdate` after `server.js` lines 69-81; `none` is `null`. -/
def lastKnownUpdate (parse : String → Option Int) (file : Option CacheFile) : Option Int :=
  match existingRepositories file with
  | some repos => some (reduceWatermark parse repos)
  | none => none

/-- JavaScript truthiness of `lastKnownUpdate`. -/
def truthyNum : Option Int → Bool
  | some w => decide (w ≠ 0)
  | none => false

/-! ## Pagination -/

/-- The constant `perPage` (`server.js` line 83). -/
def perPage : Nat := 100

/-- The early-stop test of `server.js` lines 94-100 on one page. -/
def earlyStop (parse : String → Option Int) (wm : Option Int) (data : List Repo) : Bool :=
  if truthyNum wm ∧ data.length > 0 then
    match data.getLast?, wm with
    | some lastOnPage, some w =>
      match activityTs parse lastOnPage with
      | some lastOnPageTs => decide (lastOnPageTs < w)
      | none => false
    | _, _ => false
  else false

/-- How the `while (!done)` loop ends. -/
inductive Paged where
  /-- The loop ended; the fetched records and the page numbers requested. -/
  | done : List Repo → List Nat → Paged
  /-- A page request threw; the page numbers requested, the failing one last. -/
  | threw : List Nat → Paged
  /-- The fuel ran out with the loop still iterating. -/
  | running : List Nat → Paged
deriving DecidableEq, Repr

/-- The loop of `server.js` lines 88-104, from page `page` with `fetched` accumulated
and `requested` the page numbers requested so far. -/
def pageLoop (env : Env) (wm : Option Int) : Nat → Nat → List Repo → List Nat → Paged
  | 0, _, _, requested => Paged.running requested
  | fuel + 1, page, fetched, requested =>
    match env.pages page with
    | none => Paged.threw (requested ++ [page])
    | some data =>
      let fetched1 := fetched ++ data
      let done1 := earlyStop env.parse wm data
      let done2 := decide (data.length < perPage)
      if done1 || done2 then Paged.done fetched1 (requested ++ [page])
      else pageLoop env wm fuel (page + 1) fetched1 (requested ++ [page])

/-! ## Normalisation and merge -/

/-- The function `normalize` (`server.js` lines 107-126). -/
def normalize (r : Repo) : Repo :=
  { id := r.id
    name := r.name
    full_name := r.full_name
    description := r.description
    language := r.language
    stargazers_count := r.stargazers_count
    forks_count := r.forks_count
    updated_at := r.updated_at
    pushed_at := r.pushed_at
    size := r.size
    isPrivate := r.isPrivate
    fork := r.fork
    html_url := r.html_url
    clone_url := r.clone_url
    topics := r.topics
    archived := r.archived
    disabled := r.disabled
    visibility := r.visibility
    extras := [] }

/-- The method `Map.prototype.set`: an existing key keeps its position and takes the new value,
a new key is appended. -/
def mapSet : List (Nat × Repo) → Nat → Repo → List (Nat × Repo)
  | [], k, v => [(k, v)]
  | (k1, v1) :: m, k, v => if k1 = k then (k1, v) :: m else (k1, v1) :: mapSet m k v

/-- The constructor call `new Map(entries)`. -/
def mapOfEntries (entries : List (Nat × Repo)) : List (Nat × Repo) :=
  entries.foldl (fun m e => mapSet m e.1 e.2) []

/-- The delta-merge branch (`server.js` lines 131-135). -/
def deltaMerge (existing fetched : List Repo) : List Repo :=
  let map0 := mapOfEntries (existing.map (fun r => (r.id, r)))
  let map1 := fetched.foldl (fun m r => mapSet m r.id (normalize r)) map0
  map1.map Prod.snd

/-- The condition of `server.js` line 129. -/
def mergeCondition (existing : Option (List Repo)) (fetched : List Repo) (wm : Option Int) : Bool :=
  match existing with
  | some repos => decide (repos.length ≠ 0) && decide (fetched.length ≠ 0) && truthyNum wm
  | none => false

/-- The value of `finalRepos` after `server.js` lines 128-138. -/
def finalRepos (existing : Option (List Repo)) (fetched : List Repo) (wm : Option Int) : List Repo :=
  if mergeCondition existing fetched wm then deltaMerge (existing.getD []) fetched
  else fetched.map normalize

/-! ## The cycle -/

/-- How a call of `fetchAndCacheRepos` ends. -/
inductive Outcome where
  /-- The value `{ skipped: true, reason, rate }`. -/
  | skipped : String → RateStatus → Outcome
  /-- The value `{ skipped: false, count, merged_count }`. -/
  | ok : Nat → Nat → Outcome
  /-- The exception of a page request propagated to the caller. -/
  | failed : Outcome
  /-- The fuel ran out inside the pagination loop. -/
  | running : Outcome
deriving DecidableEq, Repr

/-- A call of `fetchAndCacheRepos`: how it ended, `DATA_FILE` afterwards, and the
page numbers requested from the repository endpoint. -/
structure Run where
  outcome : Outcome
  file : Option CacheFile
  requested : List Nat
deriving DecidableEq, Repr

/-- The function `fetchAndCacheRepos` (`server.js` lines 58-148). -/
def fetchAndCacheRepos (env : Env) (fuel : Nat) (file : Option CacheFile) : Run :=
  let rate := getRateLimit env
  match rate, bufferReached env rate with
  | some r, true =>
    { outcome := Outcome.skipped "Rate limit buffer reached" r, file := file, requested := [] }
  | _, _ =>
    let existing := existingRepositories file
    let wm := lastKnownUpdate env.parse file
    match pageLoop env wm fuel 1 [] [] with
    | Paged.threw requested => { outcome := Outcome.failed, file := file, requested := requested }
    | Paged.running requested => { outcome := Outcome.running, file := file, requested := requested }
    | Paged.done fetched requested =>
      let final := finalRepos existing fetched wm
      let payload : Snapshot :=
        { repositories := final, last_updated := env.now, total_count := final.length }
      { outcome := Outcome.ok fetched.length final.length
        file := some (CacheFile.snapshot payload)
        requested := requested }

/-! ## The bootstrap script -/

/-- The loop of `initialFetch.js` lines 27-33. -/
def initialLoop (env : Env) : Nat → Nat → List Repo → List Nat → Paged
  | 0, _, _, requested => Paged.running requested
  | fuel + 1, page, repos, requested =>
    match env.pages page with
    | none => Paged.threw (requested ++ [page])
    | some data =>
      let repos1 := repos ++ data
      if data.length < perPage then Paged.done repos1 (requested ++ [page])
      else initialLoop env fuel (page + 1) repos1 (requested ++ [page])

/-- The routine of `initialFetch.js` lines 24-60: `DATA_FILE` after the script. -/
def initialFetch (env : Env) (fuel : Nat) (file : Option CacheFile) : Option CacheFile :=
  match initialLoop env fuel 1 [] [] with
  | Paged.done repos _ =>
    some (CacheFile.snapshot
      { repositories := repos.map normalize, last_updated := env.now, total_count := repos.length })
  | Paged.threw _ => file
  | Paged.running _ => file

/-! ## A host for concrete runs

`Date.parse` belongs to the JavaScript host, and the embedding takes it as the
parameter `Env.parse`; every general statement below holds for every `parse`.
The concrete runs need one host. `isoParse` is `Date.parse` of Node on a host whose
time zone is UTC, restricted to these shapes of string:

* the date `YYYY-MM-DD`, with a month from 01 to 12 and a day from 01 to 31 (a day
  past the end of the month runs on into the next month, as in Node);
* such a date followed by `T` and a time `HH:mm`, `HH:mm:ss` or `HH:mm:ss.sss`
  (hour 24 only as 24:00:00), followed by `Z`, by an offset `+HH:mm` or `-HH:mm`,
  or by nothing;
* the string `0`, which is what the code hands to `Date.parse` for a record that has
  neither `updated_at` nor `pushed_at`, and which Node reads as 2000-01-01T00:00:00.

On every other string `isoParse` returns `none`; Node accepts many more shapes, which
are not modelled, and no run below uses one. -/

/-- Value of a decimal digit. -/
def digitVal (c : Char) : Option Nat :=
  if c.isDigit then some (c.toNat - 48) else none

/-- Value of two decimal digits. -/
def num2 (a b : Char) : Option Nat := do
  let x ← digitVal a
  let y ← digitVal b
  pure (10 * x + y)

/-- Value of three decimal digits. -/
def num3 (a b c : Char) : Option Nat := do
  let x ← num2 a b
  let y ← digitVal c
  pure (10 * x + y)

/-- Value of four decimal digits. -/
def num4 (a b c d : Char) : Option Nat := do
  let x ← num2 a b
  let y ← num2 c d
  pure (100 * x + y)

/-- Leap years of the proleptic Gregorian calendar. -/
def isLeapYear (y : Nat) : Bool :=
  (y % 4 == 0 && y % 100 != 0) || y % 400 == 0

/-- Number of days of month `m` of year `y`. -/
def daysInMonth (y m : Nat) : Nat :=
  if m = 2 then (if isLeapYear y then 29 else 28)
  else if m = 4 ∨ m = 6 ∨ m = 9 ∨ m = 11 then 30
  else 31

/-- Days from 0000-01-01 to the first day of year `y`. -/
def daysBeforeYear (y : Nat) : Nat :=
  365 * y + (y + 3) / 4 - (y + 99) / 100 + (y + 399) / 400

/-- Days from the first day of year `y` to the first day of its month `m`. -/
def daysBeforeMonth (y m : Nat) : Nat :=
  ((List.range (m - 1)).map (fun i => daysInMonth y (i + 1))).sum

/-- Milliseconds from 1970-01-01T00:00:00Z to the given UTC instant. A day after the
last day of the month counts on into the next month. -/
def utcMillis (y m d hh mm ss ms : Nat) : Option Int :=
  if 1 ≤ m ∧ m ≤ 12 ∧ 1 ≤ d ∧ d ≤ 31 ∧
      (hh ≤ 23 ∨ (hh = 24 ∧ mm = 0 ∧ ss = 0 ∧ ms = 0)) ∧ mm ≤ 59 ∧ ss ≤ 59 then
    let days : Int := (daysBeforeYear y + daysBeforeMonth y m + (d - 1) : Nat) - 719528
    some (days * 86400000 + (((hh * 60 + mm) * 60 + ss) * 1000 + ms : Nat))
  else none

/-- The date `YYYY-MM-DD`: year, month, day. -/
def parseDate : List Char → Option (Nat × Nat × Nat)
  | [y1, y2, y3, y4, '-', m1, m2, '-', d1, d2] => do
    let y ← num4 y1 y2 y3 y4
    let m ← num2 m1 m2
    let d ← num2 d1 d2
    pure (y, m, d)
  | _ => none

/-- The time `HH:mm`, `HH:mm:ss` or `HH:mm:ss.sss`: hours, minutes, seconds,
milliseconds. -/
def parseClock : List Char → Option (Nat × Nat × Nat × Nat)
  | [h1, h2, ':', i1, i2] => do
    let hh ← num2 h1 h2
    let mm ← num2 i1 i2
    pure (hh, mm, 0, 0)
  | [h1, h2, ':', i1, i2, ':', s1, s2] => do
    let hh ← num2 h1 h2
    let mm ← num2 i1 i2
    let ss ← num2 s1 s2
    pure (hh, mm, ss, 0)
  | [h1, h2, ':', i1, i2, ':', s1, s2, '.', f1, f2, f3] => do
    let hh ← num2 h1 h2
    let mm ← num2 i1 i2
    let ss ← num2 s1 s2
    let ms ← num3 f1 f2 f3
    pure (hh, mm, ss, ms)
  | _ => none

/-- The offset `Z`, `+HH:mm` or `-HH:mm`, in minutes east of UTC; no offset is the
local time of the host, which is UTC. -/
def parseOffset : List Char → Option Int
  | [] => some 0
  | ['Z'] => some 0
  | ['+', h1, h2, ':', m1, m2] => do
    let hh ← num2 h1 h2
    let mm ← num2 m1 m2
    if hh ≤ 23 ∧ mm ≤ 59 then some ((60 * hh + mm : Nat) : Int) else none
  | ['-', h1, h2, ':', m1, m2] => do
    let hh ← num2 h1 h2
    let mm ← num2 m1 m2
    if hh ≤ 23 ∧ mm ≤ 59 then some (-((60 * hh + mm : Nat) : Int)) else none
  | _ => none

/-- The function `Date.parse` of Node, on a host in UTC, on the shapes of string listed
above; `none` on every other string. -/
def isoParse (s : String) : Option Int :=
  if s = "0" then some 946684800000
  else
    let chars := s.toList
    let datePart := chars.takeWhile (fun c => c != 'T')
    let rest := chars.dropWhile (fun c => c != 'T')
    match parseDate datePart, rest with
    | some (y, m, d), [] => utcMillis y m d 0 0 0 0
    | some (y, m, d), _ :: timePart =>
      let clockPart := timePart.takeWhile (fun c => c != 'Z' && c != '+' && c != '-')
      let offsetPart := timePart.dropWhile (fun c => c != 'Z' && c != '+' && c != '-')
      match parseClock clockPart, parseOffset offsetPart with
      | some (hh, mm, ss, ms), some offset =>
        (utcMillis y m d hh mm ss ms).map (fun t => t - offset * 60000)
      | _, _ => none
    | none, _ => none

/-- A repository object with the given id and `updated_at`, every other property empty. -/
def mkRepo (id : Nat) (updated_at : String) : Repo :=
  { id := id
    name := ""
    full_name := ""
    description := none
    language := none
    stargazers_count := 0
    forks_count := 0
    updated_at := some updated_at
    pushed_at := none
    size := 0
    isPrivate := false
    fork := false
    html_url := ""
    clone_url := ""
    topics := []
    archived := false
    disabled := false
    visibility := ""
    extras := [] }

/-- A raw remote record: as `mkRepo`, with two properties `normalize` does not copy. -/
def rawRepo (id : Nat) (updated_at : String) : Repo :=
  { mkRepo id updated_at with extras := [("node_id", "R_kgDOK"), ("default_branch", "main")] }

/-- A remote collection served as the given pages; every page after them is empty. -/
def servePages (ps : List (List Repo)) (page : Nat) : Option (List Repo) :=
  some (if page = 0 then [] else ps.getD (page - 1) [])

/-- A host with `isoParse` as `Date.parse`, the given buffer and rate-limit answer,
and the given pages. Quotients are left unrounded; the concrete runs compare ratios
that lie far from the buffer, where rounding to a double does not change the test. -/
def hostOf (buffer : JsNum) (rate : Option RateStatus) (ps : List (List Repo)) : Env :=
  { parse := isoParse
    toDouble := fun q => q
    buffer := buffer
    rateAnswer := rate
    pages := servePages ps
    now := "2024-03-01T00:00:00.000Z" }

/-! ## Vocabulary of the specification -/

/-- The records of the pages `first`, ..., `first + count - 1`, in page order; a page
whose request throws contributes nothing. -/
def pagesFrom (env : Env) (first count : Nat) : List Repo :=
  (List.range' first count).flatMap (fun q => (env.pages q).getD [])

/-- The activity timestamp of the last record of a page, when the page has one and
its timestamp parses. -/
def lastActivity (parse : String → Option Int) (data : List Repo) : Option Int :=
  data.getLast?.bind (activityTs parse)

/-- The stop rule as the code has it, stated on one page: `lastKnownUpdate` is a number
other than 0 and the last record of the page has a parsed
`Date.parse(updated_at || pushed_at || 0)` strictly below it, or the page is shorter
than the page size 100. A `lastKnownUpdate` of `null` or `0` leaves the short-page
rule only. -/
def stopRule (parse : String → Option Int) (wm : Option Int) (data : List Repo) : Bool :=
  (match wm, lastActivity parse data with
    | some T, some t => decide (T ≠ 0) && decide (t < T)
    | _, _ => false) || decide (data.length < 100)

/-- The activity timestamp of a record in the words of the claims: `updated_at`,
falling back to `pushed_at`, parsed; a record with neither has none. -/
def claimActivity (parse : String → Option Int) (r : Repo) : Option Int :=
  if truthyStr r.updated_at then parse (r.updated_at.getD "")
  else if truthyStr r.pushed_at then parse (r.pushed_at.getD "")
  else none

/-- The stop rule in the words of the claim on pagination: the last record of the page
has an activity timestamp strictly less than the watermark `T`, or the page is
shorter than the page size 100; with no watermark (`none`) only the latter. -/
def claimStopRule (parse : String → Option Int) (wm : Option Int) (data : List Repo) : Bool :=
  (match wm, data.getLast?.bind (claimActivity parse) with
    | some T, some t => decide (t < T)
    | _, _ => false) || decide (data.length < 100)

/-- The written snapshot of a run, when the run wrote one. -/
def Run.written (run : Run) : Option Snapshot :=
  match run.outcome, run.file with
  | Outcome.ok _ _, some (CacheFile.snapshot s) => some s
  | _, _ => none

/-- The method `Map.prototype.get`; `none` is `undefined`. -/
def mapGet : List (Nat × Repo) → Nat → Option Repo
  | [], _ => none
  | (k1, v1) :: m, k => if k1 = k then some v1 else mapGet m k

/-- The last record of a list that carries the id `k`. -/
def lastWithId : List Repo → Nat → Option Repo
  | [], _ => none
  | x :: xs, k =>
    match lastWithId xs k with
    | some r => some r
    | none => if x.id = k then some x else none

/-- A map as the code builds it: no key twice, and every value filed under its own id. -/
def MapOk (m : List (Nat × Repo)) : Prop :=
  (m.map Prod.fst).Nodup ∧ ∀ e ∈ m, e.2.id = e.1

/-- The loop `for (const r of l) map.set(r.id, f(r))` on the map `m`. -/
def setAll (f : Repo → Repo) (m : List (Nat × Repo)) (l : List Repo) : List (Nat × Repo) :=
  l.foldl (fun m r => mapSet m r.id (f r)) m

/-- The written list is the right-biased union, keyed by id, of the prior list and the
fetched list: its ids are the prior ids and the fetched ids; an id that is fetched
is held once, as `normalize` of the last fetched record with that id; an id that is
only in the prior list is held once, as the prior record with that id (the last
one, should the prior list hold the id more than once). -/
def RightBiasedUnion (prior fetched written : List Repo) : Prop :=
  (∀ k, k ∈ written.map Repo.id ↔ (k ∈ prior.map Repo.id ∨ k ∈ fetched.map Repo.id)) ∧
  (∀ pre r post, fetched = pre ++ r :: post → (∀ x ∈ post, x.id ≠ r.id) →
    written.filter (fun x => decide (x.id = r.id)) = [normalize r]) ∧
  (∀ pre r post, prior = pre ++ r :: post → (∀ x ∈ post, x.id ≠ r.id) →
    (∀ x ∈ fetched, x.id ≠ r.id) →
    written.filter (fun x => decide (x.id = r.id)) = [r])

/-! ## Concrete inputs -/

/-- The prior snapshot of the scenario of the specification (section 8). -/
def scenarioPrior : Option CacheFile :=
  some (CacheFile.snapshot
    { repositories := [mkRepo 1 "2024-01-01", mkRepo 2 "2024-01-05"]
      last_updated := "2024-01-05T00:00:00.000Z"
      total_count := 2 })

/-- A host with the default buffer 0.2 and a quota of 4999 out of 5000. -/
def plentyHost (ps : List (List Repo)) : Env :=
  hostOf (JsNum.fin (1 / 5)) (some { limit := 5000, remaining := 4999, reset := 1709258400 }) ps

/-- The remote of the scenario: one page, shorter than the page size. -/
def scenarioHost : Env :=
  plentyHost [[rawRepo 2 "2024-02-01", rawRepo 3 "2024-01-10"]]

/-- A page of exactly 100 records, ids `firstId`, ..., `firstId + 99`, all with the
same `updated_at`. -/
def fullPage (firstId : Nat) (updated_at : String) : List Repo :=
  (List.range 100).map (fun i => mkRepo (firstId + i) updated_at)

/-- A remote of three pages in descending recency: 100 records of 2024-02-01,
100 records of 2024-01-01, one record of 2023-12-01. -/
def threePages : List (List Repo) :=
  [fullPage 1 "2024-02-01", fullPage 101 "2024-01-01", [mkRepo 201 "2023-12-01"]]

/-- A prior snapshot whose newest record is of 2024-01-05; id 999 is not on the remote. -/
def januaryPrior : Option CacheFile :=
  some (CacheFile.snapshot
    { repositories := [mkRepo 150 "2024-01-05", mkRepo 999 "2023-01-01"]
      last_updated := "2024-01-05T00:00:00.000Z"
      total_count := 2 })

/-- A host whose rate-limit answer reports a limit of 0 with 0 remaining. -/
def zeroLimitHost : Env :=
  hostOf (JsNum.fin (1 / 5)) (some { limit := 0, remaining := 0, reset := 0 })
    [[mkRepo 1 "2024-01-01"]]

/-- A host with 3 requests left out of 60, below the buffer 0.2. -/
def starvedHost : Env :=
  hostOf (JsNum.fin (1 / 5)) (some { limit := 60, remaining := 3, reset := 1709258400 })
    [[mkRepo 1 "2024-01-01"]]

/-- A host whose first page is answered in full and whose second page request throws. -/
def brokenHost : Env :=
  { parse := isoParse
    toDouble := fun q => q
    buffer := JsNum.fin (1 / 5)
    rateAnswer := none
    pages := fun page => if page = 1 then some (fullPage 1 "2024-02-01") else none
    now := "2024-03-01T00:00:00.000Z" }

/-- A prior snapshot whose only record was last updated one second before the epoch. -/
def preEpochPrior : Option CacheFile :=
  some (CacheFile.snapshot
    { repositories := [mkRepo 1 "1969-12-31T23:59:59Z"]
      last_updated := "1970-01-01T00:00:00.000Z"
      total_count := 1 })

/-- The run took the pagination path: it did not return the skipped value, and the
first request it made was for page 1. -/
def Run.proceeded (run : Run) : Prop :=
  (∀ reason r, run.outcome ≠ Outcome.skipped reason r) ∧ run.requested.head? = some 1

/-- A remote in which the record of id 100 is listed twice, last on page 1 and first
on page 2: the listing shifted by one position between the two requests. -/
def driftHost : Env :=
  plentyHost [fullPage 1 "2024-02-01", [mkRepo 100 "2024-02-01", mkRepo 101 "2024-01-01"]]

/-- A prior snapshot that dates id 1 at 2024-03-01, later than the remote does. -/
def regressPrior : Option CacheFile :=
  some (CacheFile.snapshot
    { repositories := [mkRepo 1 "2024-03-01"]
      last_updated := "2024-03-01T00:00:00.000Z"
      total_count := 1 })

/-- A remote of two pages: ids 1..100 of 2024-02-01, then id 101 of 2024-01-01. -/
def regressHost : Env :=
  plentyHost [fullPage 1 "2024-02-01", [mkRepo 101 "2024-01-01"]]

/-- A page of 100 records, ids 1..100, the first of 2024-02-02 and the others of
2024-02-01. -/
def mixedPage : List Repo :=
  mkRepo 1 "2024-02-02" :: (List.range 99).map (fun i => mkRepo (2 + i) "2024-02-01")

/-- The record of id 100 under another name. -/
def renamed100 : Repo :=
  { mkRepo 100 "2024-02-01" with name := "renamed" }

/-- A remote that lists id 100 twice with different content: last on page 1, and
renamed on page 2. -/
def twiceHost : Env :=
  plentyHost [mixedPage, [renamed100]]

/-- A record that carries neither `updated_at` nor `pushed_at`. -/
def undatedRepo (id : Nat) : Repo :=
  { mkRepo id "" with updated_at := none }

/-- A page of 100 records, ids 1..100: 99 records of 2024-02-01 and a last record
without any timestamp. -/
def undatedPage : List Repo :=
  (List.range 99).map (fun i => mkRepo (1 + i) "2024-02-01") ++ [undatedRepo 100]

/-- A remote whose page 1 ends with the undated record and whose page 2 holds id 101,
of 2024-02-01. -/
def undatedHost : Env :=
  plentyHost [undatedPage, [mkRepo 101 "2024-02-01"]]

/-- A page of 100 records, ids 1..100: 99 records of 1970-01-01 and a last record of
one second before the epoch. -/
def epochPage : List Repo :=
  (List.range 99).map (fun i => mkRepo (1 + i) "1970-01-01") ++
    [mkRepo 100 "1969-12-31T23:59:59Z"]

/-- A remote whose page 1 is `epochPage` and whose page 2 holds id 101. -/
def epochHost : Env :=
  plentyHost [epochPage, [mkRepo 101 "1969-12-31T23:59:58Z"]]

/-- A prior snapshot whose only record was last updated at the epoch itself. -/
def epochPrior : Option CacheFile :=
  some (CacheFile.snapshot
    { repositories := [mkRepo 1 "1970-01-01"]
      last_updated := "1970-01-01T00:00:00.000Z"
      total_count := 1 })

set_option maxRecDepth 100000

/-! ## Lemmas: watermark -/

theorem foldl_watermark_ge (parse : String → Option Int) (repos : List Repo) (acc : Int) :
    acc ≤ repos.foldl (watermarkStep parse) acc := by
  induction repos generalizing acc with
  | nil => simp
  | cons r rs ih =>
    simp only [List.foldl_cons]
    refine le_trans ?_ (ih _)
    unfold watermarkStep
    cases activityTs parse r with
    | none => exact le_refl _
    | some t => exact le_max_left _ _

theorem foldl_watermark_upper (parse : String → Option Int) (repos : List Repo) (acc : Int)
    (r : Repo) (hr : r ∈ repos) (t : Int) (ht : activityTs parse r = some t) :
    t ≤ repos.foldl (watermarkStep parse) acc := by
  induction repos generalizing acc with
  | nil => cases hr
  | cons x xs ih =>
    simp only [List.foldl_cons]
    rcases List.mem_cons.1 hr with h | h
    · subst h
      refine le_trans ?_ (foldl_watermark_ge parse xs _)
      simp [watermarkStep, ht]
    · exact ih _ h

theorem foldl_watermark_attained (parse : String → Option Int) (repos : List Repo) (acc : Int) :
    repos.foldl (watermarkStep parse) acc = acc ∨
      ∃ r ∈ repos, activityTs parse r = some (repos.foldl (watermarkStep parse) acc) := by
  induction repos generalizing acc with
  | nil => simp
  | cons x xs ih =>
    simp only [List.foldl_cons]
    rcases ih (watermarkStep parse acc x) with h | ⟨r, hr, hts⟩
    · rw [h]
      unfold watermarkStep
      cases hx : activityTs parse x with
      | none => exact Or.inl rfl
      | some t =>
        simp only
        rcases le_total acc t with hle | hle
        · right
          exact ⟨x, List.mem_cons_self _ _, by rw [hx, max_eq_right hle]⟩
        · left
          exact max_eq_left hle
    · right
      exact ⟨r, List.mem_cons_of_mem _ hr, hts⟩

theorem reduceWatermark_nonneg (parse : String → Option Int) (repos : List Repo) :
    0 ≤ reduceWatermark parse repos :=
  foldl_watermark_ge parse repos 0

theorem reduceWatermark_upper (parse : String → Option Int) (repos : List Repo)
    (r : Repo) (hr : r ∈ repos) (t : Int) (ht : activityTs parse r = some t) :
    t ≤ reduceWatermark parse repos :=
  foldl_watermark_upper parse repos 0 r hr t ht

theorem reduceWatermark_attained (parse : String → Option Int) (repos : List Repo) :
    reduceWatermark parse repos = 0 ∨
      ∃ r ∈ repos, activityTs parse r = some (reduceWatermark parse repos) :=
  foldl_watermark_attained parse repos 0

theorem reduceWatermark_eq_zero_iff (parse : String → Option Int) (repos : List Repo) :
    reduceWatermark parse repos = 0 ↔
      ∀ r ∈ repos, ∀ t, activityTs parse r = some t → t ≤ 0 := by
  constructor
  · intro h r hr t ht
    have := reduceWatermark_upper parse repos r hr t ht
    omega
  · intro h
    rcases reduceWatermark_attained parse repos with h0 | ⟨r, hr, hts⟩
    · exact h0
    · have h1 := h r hr _ hts
      have h2 := reduceWatermark_nonneg parse repos
      omega

theorem reduceWatermark_nil (parse : String → Option Int) : reduceWatermark parse [] = 0 := rfl

/-! ## Lemmas: pagination -/

theorem stop_eq_stopRule (parse : String → Option Int) (wm : Option Int) (data : List Repo) :
    (earlyStop parse wm data || decide (data.length < perPage)) = stopRule parse wm data := by
  unfold stopRule earlyStop lastActivity perPage
  congr 1
  cases wm with
  | none => simp [truthyNum]
  | some T =>
    rcases List.eq_nil_or_concat data with h | ⟨l, a, h⟩
    · subst h; simp
    · subst h
      by_cases hT : T = 0
      · subst hT
        cases hts : activityTs parse a <;> simp [truthyNum, hts]
      · cases hts : activityTs parse a <;> simp [truthyNum, hT, hts]

theorem pagesFrom_zero (env : Env) (p : Nat) : pagesFrom env p 0 = [] := by
  simp [pagesFrom]

theorem pagesFrom_succ_left (env : Env) (p n : Nat) (data : List Repo)
    (h : env.pages p = some data) :
    pagesFrom env p (n + 1) = data ++ pagesFrom env (p + 1) n := by
  simp [pagesFrom, List.range'_succ, h]

theorem pagesFrom_succ_right (env : Env) (p n : Nat) (data : List Repo)
    (h : env.pages (p + n) = some data) :
    pagesFrom env p (n + 1) = pagesFrom env p n ++ data := by
  simp [pagesFrom, List.range'_1_concat, h]

theorem pageLoop_done (env : Env) (wm : Option Int) :
    ∀ (fuel p : Nat) (acc : List Repo) (req : List Nat) (F : List Repo) (R : List Nat),
      pageLoop env wm fuel p acc req = Paged.done F R →
      ∃ n data, n < fuel ∧ env.pages (p + n) = some data ∧
        stopRule env.parse wm data = true ∧
        R = req ++ List.range' p (n + 1) ∧ F = acc ++ pagesFrom env p n ++ data ∧
        ∀ i, i < n → ∃ d, env.pages (p + i) = some d ∧ stopRule env.parse wm d = false := by
  intro fuel
  induction fuel with
  | zero => intro p acc req F R h; simp [pageLoop] at h
  | succ fuel ih =>
    intro p acc req F R h
    unfold pageLoop at h
    cases hp : env.pages p with
    | none => simp [hp] at h
    | some data =>
      simp only [hp, stop_eq_stopRule] at h
      cases hs : stopRule env.parse wm data with
      | true =>
        simp only [hs, if_true, Paged.done.injEq] at h
        refine ⟨0, data, Nat.succ_pos _, by simpa using hp, hs, ?_, ?_, ?_⟩
        · simp [h.2.symm]
        · simp [h.1.symm, pagesFrom_zero]
        · intro i hi; omega
      | false =>
        simp only [hs] at h
        obtain ⟨n, d, hn, hd, hsd, hR, hF, hbefore⟩ := ih (p + 1) _ _ F R h
        refine ⟨n + 1, d, by omega, ?_, hsd, ?_, ?_, ?_⟩
        · rw [← hd]; congr 1; omega
        · rw [hR, List.range'_succ (s := p) (n := n + 1)]; simp
        · rw [hF, pagesFrom_succ_left env p n data hp]; simp
        · intro i hi
          cases i with
          | zero => exact ⟨data, by simpa using hp, hs⟩
          | succ j =>
            obtain ⟨d1, hd1, hs1⟩ := hbefore j (by omega)
            refine ⟨d1, ?_, hs1⟩
            rw [← hd1]; congr 1; omega

theorem pageLoop_complete (env : Env) (wm : Option Int) :
    ∀ (n fuel p : Nat) (acc : List Repo) (req : List Nat) (data : List Repo),
      n < fuel → env.pages (p + n) = some data → stopRule env.parse wm data = true →
      (∀ i, i < n → ∃ d, env.pages (p + i) = some d ∧ stopRule env.parse wm d = false) →
      pageLoop env wm fuel p acc req =
        Paged.done (acc ++ pagesFrom env p n ++ data) (req ++ List.range' p (n + 1)) := by
  intro n
  induction n with
  | zero =>
    intro fuel p acc req data hfuel hp hs _
    obtain ⟨f, rfl⟩ : ∃ f, fuel = f + 1 := ⟨fuel - 1, by omega⟩
    have hp1 : env.pages p = some data := by simpa using hp
    unfold pageLoop
    simp [hp1, stop_eq_stopRule, hs, pagesFrom_zero]
  | succ n ih =>
    intro fuel p acc req data hfuel hp hs hbefore
    obtain ⟨f, rfl⟩ : ∃ f, fuel = f + 1 := ⟨fuel - 1, by omega⟩
    obtain ⟨d0, hd0, hs0⟩ := hbefore 0 (Nat.succ_pos _)
    have hd0p : env.pages p = some d0 := by simpa using hd0
    unfold pageLoop
    simp only [hd0p, stop_eq_stopRule, hs0]
    have hp1 : env.pages (p + 1 + n) = some data := by
      rw [← hp]; congr 1; omega
    have hb1 : ∀ i, i < n → ∃ d, env.pages (p + 1 + i) = some d ∧
        stopRule env.parse wm d = false := by
      intro i hi
      obtain ⟨d, hd, hsd⟩ := hbefore (i + 1) (by omega)
      refine ⟨d, ?_, hsd⟩
      rw [← hd]; congr 1; omega
    have := ih f (p + 1) (acc ++ d0) (req ++ [p]) data (by omega) hp1 hs hb1
    simp only [Bool.false_eq_true, if_false] at this ⊢
    rw [this, pagesFrom_succ_left env p n d0 hd0p, List.range'_succ (s := p) (n := n + 1)]
    simp

theorem pageLoop_threw (env : Env) (wm : Option Int) :
    ∀ (fuel p : Nat) (acc : List Repo) (req : List Nat) (R : List Nat),
      pageLoop env wm fuel p acc req = Paged.threw R →
      ∃ n, n < fuel ∧ env.pages (p + n) = none ∧ R = req ++ List.range' p (n + 1) := by
  intro fuel
  induction fuel with
  | zero => intro p acc req R h; simp [pageLoop] at h
  | succ fuel ih =>
    intro p acc req R h
    unfold pageLoop at h
    cases hp : env.pages p with
    | none =>
      simp only [hp, Paged.threw.injEq] at h
      exact ⟨0, Nat.succ_pos _, by simpa using hp, by simp [h.symm]⟩
    | some data =>
      simp only [hp] at h
      split at h
      · cases h
      · obtain ⟨n, hn, hnone, hR⟩ := ih (p + 1) _ _ R h
        refine ⟨n + 1, by omega, ?_, ?_⟩
        · rw [← hnone]; congr 1; omega
        · rw [hR, List.range'_succ (s := p) (n := n + 1)]; simp

theorem pageLoop_running (env : Env) (wm : Option Int) :
    ∀ (fuel p : Nat) (acc : List Repo) (req : List Nat) (R : List Nat),
      pageLoop env wm fuel p acc req = Paged.running R →
      R = req ++ List.range' p fuel ∧ ∀ i, i < fuel → ∃ d, env.pages (p + i) = some d := by
  intro fuel
  induction fuel with
  | zero => intro p acc req R h; simp [pageLoop] at h; simp [h]
  | succ fuel ih =>
    intro p acc req R h
    unfold pageLoop at h
    cases hp : env.pages p with
    | none => simp [hp] at h
    | some data =>
      simp only [hp] at h
      split at h
      · cases h
      · obtain ⟨hR, hall⟩ := ih (p + 1) _ _ R h
        refine ⟨?_, ?_⟩
        · rw [hR, List.range'_succ (s := p) (n := fuel)]; simp
        · intro i hi
          cases i with
          | zero => exact ⟨data, by simpa using hp⟩
          | succ j =>
            obtain ⟨d, hd⟩ := hall j (by omega)
            refine ⟨d, ?_⟩
            rw [← hd]; congr 1; omega

/-! ## Lemmas: the map and the merge -/

theorem normalize_id (r : Repo) : (normalize r).id = r.id := rfl

theorem mapGet_mapSet (m : List (Nat × Repo)) (k : Nat) (v : Repo) (k1 : Nat) :
    mapGet (mapSet m k v) k1 = if k = k1 then some v else mapGet m k1 := by
  induction m with
  | nil => simp [mapSet, mapGet]
  | cons e m ih =>
    obtain ⟨a, b⟩ := e
    unfold mapSet
    by_cases hak : a = k
    · subst hak
      by_cases h1 : a = k1 <;> simp [mapGet, h1]
    · simp only [hak, if_false]
      by_cases h1 : a = k1
      · subst h1
        have : ¬ k = a := fun h => hak h.symm
        simp [mapGet, this]
      · simp [mapGet, h1, ih]

theorem mem_keys_mapSet (m : List (Nat × Repo)) (k : Nat) (v : Repo) (k1 : Nat) :
    k1 ∈ (mapSet m k v).map Prod.fst ↔ k1 = k ∨ k1 ∈ m.map Prod.fst := by
  induction m with
  | nil => simp [mapSet]
  | cons e m ih =>
    obtain ⟨a, b⟩ := e
    unfold mapSet
    by_cases hak : a = k
    · subst hak
      simp only [if_true, List.map_cons, List.mem_cons]
      tauto
    · simp only [hak, if_false, List.map_cons, List.mem_cons, ih]
      tauto

theorem mapSet_of_not_mem (m : List (Nat × Repo)) (k : Nat) (v : Repo)
    (h : k ∉ m.map Prod.fst) : mapSet m k v = m ++ [(k, v)] := by
  induction m with
  | nil => rfl
  | cons e m ih =>
    obtain ⟨a, b⟩ := e
    simp only [List.map_cons, List.mem_cons, not_or] at h
    have hak : ¬ a = k := fun h1 => h.1 h1.symm
    simp [mapSet, hak, ih h.2]

theorem mapOk_nil : MapOk [] := by
  simp [MapOk]

theorem mapOk_mapSet (m : List (Nat × Repo)) (k : Nat) (v : Repo) (hm : MapOk m)
    (hv : v.id = k) : MapOk (mapSet m k v) := by
  induction m with
  | nil => simp [mapSet, MapOk, hv]
  | cons e m ih =>
    obtain ⟨a, b⟩ := e
    obtain ⟨hnd, hid⟩ := hm
    simp only [List.map_cons, List.nodup_cons] at hnd
    have hm1 : MapOk m := ⟨hnd.2, fun e he => hid e (List.mem_cons_of_mem _ he)⟩
    unfold mapSet
    by_cases hak : a = k
    · subst hak
      simp only [if_true]
      refine ⟨by simpa using hnd, ?_⟩
      intro e he
      rcases List.mem_cons.1 he with h | h
      · subst h; exact hv
      · exact hid e (List.mem_cons_of_mem _ h)
    · simp only [hak, if_false]
      obtain ⟨ind, iid⟩ := ih hm1
      refine ⟨?_, ?_⟩
      · simp only [List.map_cons, List.nodup_cons]
        refine ⟨?_, ind⟩
        intro hmem
        rcases (mem_keys_mapSet m k v a).1 hmem with h | h
        · exact hak h
        · exact hnd.1 h
      · intro e he
        rcases List.mem_cons.1 he with h | h
        · subst h; exact hid _ (List.mem_cons_self _ _)
        · exact iid e h

theorem mapGet_eq_none_iff (m : List (Nat × Repo)) (k : Nat) :
    mapGet m k = none ↔ k ∉ m.map Prod.fst := by
  induction m with
  | nil => simp [mapGet]
  | cons e m ih =>
    obtain ⟨a, b⟩ := e
    by_cases hak : a = k
    · simp [mapGet, hak]
    · have : ¬ k = a := fun h => hak h.symm
      simp [mapGet, hak, ih, this]

theorem mapSet_of_get (m : List (Nat × Repo)) (k : Nat) (v : Repo)
    (h : mapGet m k = some v) : mapSet m k v = m := by
  induction m with
  | nil => simp [mapGet] at h
  | cons e m ih =>
    obtain ⟨a, b⟩ := e
    by_cases hak : a = k
    · simp only [mapGet, hak, if_true, Option.some.injEq] at h
      simp [mapSet, hak, h]
    · simp only [mapGet, hak, if_false] at h
      simp [mapSet, hak, ih h]

theorem values_filter_of_mapOk (m : List (Nat × Repo)) (k : Nat) (hm : MapOk m) :
    (m.map Prod.snd).filter (fun r => decide (r.id = k)) = (mapGet m k).toList := by
  induction m with
  | nil => simp [mapGet]
  | cons e m ih =>
    obtain ⟨a, b⟩ := e
    obtain ⟨hnd, hid⟩ := hm
    simp only [List.map_cons, List.nodup_cons] at hnd
    have hm1 : MapOk m := ⟨hnd.2, fun e he => hid e (List.mem_cons_of_mem _ he)⟩
    have hb : b.id = a := hid (a, b) (List.mem_cons_self _ _)
    by_cases hak : a = k
    · subst hak
      have hnone : mapGet m a = none := (mapGet_eq_none_iff m a).2 hnd.1
      have := ih hm1
      rw [hnone] at this
      simp [mapGet, hb, this]
    · have hbk : ¬ b.id = k := by rw [hb]; exact hak
      simp [mapGet, hak, hbk, ih hm1]

theorem ids_of_mapOk (m : List (Nat × Repo)) (hm : MapOk m) :
    (m.map Prod.snd).map Repo.id = m.map Prod.fst := by
  rw [List.map_map]
  apply List.map_congr_left
  intro e he
  exact hm.2 e he

theorem setAll_nil (f : Repo → Repo) (m : List (Nat × Repo)) : setAll f m [] = m := rfl

theorem setAll_cons (f : Repo → Repo) (m : List (Nat × Repo)) (x : Repo) (xs : List Repo) :
    setAll f m (x :: xs) = setAll f (mapSet m x.id (f x)) xs := rfl

theorem deltaMerge_eq (existing fetched : List Repo) :
    deltaMerge existing fetched =
      (setAll normalize (setAll (fun r => r) [] existing) fetched).map Prod.snd := by
  simp [deltaMerge, mapOfEntries, setAll, List.foldl_map]

theorem mapOk_setAll (f : Repo → Repo) (hf : ∀ r, (f r).id = r.id) (l : List Repo) :
    ∀ m, MapOk m → MapOk (setAll f m l) := by
  induction l with
  | nil => intro m hm; exact hm
  | cons x xs ih =>
    intro m hm
    rw [setAll_cons]
    exact ih _ (mapOk_mapSet m x.id (f x) hm (hf x))

theorem mapGet_setAll (f : Repo → Repo) (l : List Repo) (k : Nat) :
    ∀ m, mapGet (setAll f m l) k =
      match lastWithId l k with
      | some r => some (f r)
      | none => mapGet m k := by
  induction l with
  | nil => intro m; simp [setAll_nil, lastWithId]
  | cons x xs ih =>
    intro m
    rw [setAll_cons, ih, lastWithId]
    cases lastWithId xs k with
    | some r => rfl
    | none =>
      simp only [mapGet_mapSet]
      by_cases hx : x.id = k <;> simp [hx]

theorem mem_keys_setAll (f : Repo → Repo) (l : List Repo) (k : Nat) :
    ∀ m, k ∈ (setAll f m l).map Prod.fst ↔ k ∈ m.map Prod.fst ∨ k ∈ l.map Repo.id := by
  induction l with
  | nil => intro m; simp [setAll_nil]
  | cons x xs ih =>
    intro m
    rw [setAll_cons, ih, mem_keys_mapSet]
    simp only [List.map_cons, List.mem_cons]
    tauto

theorem lastWithId_eq_none_iff (l : List Repo) (k : Nat) :
    lastWithId l k = none ↔ ∀ x ∈ l, x.id ≠ k := by
  induction l with
  | nil => simp [lastWithId]
  | cons x xs ih =>
    rw [lastWithId]
    cases h : lastWithId xs k with
    | some r =>
      simp only [false_iff, reduceCtorEq]
      intro hall
      have : lastWithId xs k = none := ih.2 (fun y hy => hall y (List.mem_cons_of_mem _ hy))
      rw [h] at this
      cases this
    | none =>
      have hxs := ih.1 h
      by_cases hx : x.id = k
      · simp [hx]
      · simp only [hx, if_false, true_iff]
        intro y hy
        rcases List.mem_cons.1 hy with h1 | h1
        · subst h1; exact hx
        · exact hxs y h1

theorem lastWithId_some (l : List Repo) (k : Nat) (r : Repo) (h : lastWithId l k = some r) :
    r ∈ l ∧ r.id = k := by
  induction l with
  | nil => simp [lastWithId] at h
  | cons x xs ih =>
    rw [lastWithId] at h
    cases h1 : lastWithId xs k with
    | some r1 =>
      rw [h1] at h
      simp only [Option.some.injEq] at h
      subst h
      exact ⟨List.mem_cons_of_mem _ (ih h1).1, (ih h1).2⟩
    | none =>
      rw [h1] at h
      by_cases hx : x.id = k
      · simp only [hx, if_true, Option.some.injEq] at h
        subst h
        exact ⟨List.mem_cons_self _ _, hx⟩
      · simp [hx] at h

theorem lastWithId_append_cons (pre post : List Repo) (r : Repo)
    (hpost : ∀ x ∈ post, x.id ≠ r.id) : lastWithId (pre ++ r :: post) r.id = some r := by
  induction pre with
  | nil =>
    have : lastWithId post r.id = none := (lastWithId_eq_none_iff post r.id).2 hpost
    simp [lastWithId, this]
  | cons x xs ih =>
    simp only [List.cons_append]
    rw [lastWithId, ih]

theorem lastWithId_of_nodup (l : List Repo) (hl : (l.map Repo.id).Nodup) (r : Repo)
    (hr : r ∈ l) : lastWithId l r.id = some r := by
  obtain ⟨pre, post, rfl⟩ := List.append_of_mem hr
  apply lastWithId_append_cons
  intro x hx hid
  simp only [List.map_append, List.map_cons] at hl
  have h1 := (List.nodup_append.1 hl).2.1
  simp only [List.nodup_cons, List.mem_map, not_exists, not_and] at h1
  exact h1.1 x hx hid

theorem setAll_fixed (f : Repo → Repo) (m : List (Nat × Repo)) (l : List Repo)
    (h : ∀ r ∈ l, mapGet m r.id = some (f r)) : setAll f m l = m := by
  induction l with
  | nil => rfl
  | cons x xs ih =>
    rw [setAll_cons, mapSet_of_get m x.id (f x) (h x (List.mem_cons_self _ _))]
    exact ih (fun r hr => h r (List.mem_cons_of_mem _ hr))

theorem setAll_fresh (f : Repo → Repo) (l : List Repo) :
    ∀ m, (m.map Prod.fst ++ l.map Repo.id).Nodup →
      setAll f m l = m ++ l.map (fun r => (r.id, f r)) := by
  induction l with
  | nil => intro m _; simp [setAll_nil]
  | cons x xs ih =>
    intro m hnd
    have hx : x.id ∉ m.map Prod.fst := by
      intro hmem
      have := (List.nodup_append.1 hnd).2.2
      exact this hmem (by simp)
    rw [setAll_cons, mapSet_of_not_mem m x.id (f x) hx, ih]
    · simp
    · simpa [List.map_append, List.append_assoc] using hnd

theorem entries_of_mapOk (m : List (Nat × Repo)) (hm : MapOk m) :
    (m.map Prod.snd).map (fun r => (r.id, r)) = m := by
  rw [List.map_map]
  conv_rhs => rw [← List.map_id m]
  apply List.map_congr_left
  intro e he
  obtain ⟨a, b⟩ := e
  have := hm.2 (a, b) he
  simp only at this
  simp [this]

theorem setAll_id_of_mapOk (m : List (Nat × Repo)) (hm : MapOk m) :
    setAll (fun r => r) [] (m.map Prod.snd) = m := by
  have h := setAll_fresh (fun r => r) (m.map Prod.snd) []
  rw [h]
  · simpa using entries_of_mapOk m hm
  · simpa [ids_of_mapOk m hm] using hm.1

theorem mapOk_merge (existing fetched : List Repo) :
    MapOk (setAll normalize (setAll (fun r => r) [] existing) fetched) :=
  mapOk_setAll normalize normalize_id fetched _
    (mapOk_setAll (fun r => r) (fun _ => rfl) existing _ mapOk_nil)

theorem deltaMerge_mem_ids (existing fetched : List Repo) (k : Nat) :
    k ∈ (deltaMerge existing fetched).map Repo.id ↔
      k ∈ existing.map Repo.id ∨ k ∈ fetched.map Repo.id := by
  rw [deltaMerge_eq, ids_of_mapOk _ (mapOk_merge existing fetched), mem_keys_setAll,
    mem_keys_setAll]
  simp

theorem deltaMerge_ids_nodup (existing fetched : List Repo) :
    ((deltaMerge existing fetched).map Repo.id).Nodup := by
  rw [deltaMerge_eq, ids_of_mapOk _ (mapOk_merge existing fetched)]
  exact (mapOk_merge existing fetched).1

theorem deltaMerge_filter (existing fetched : List Repo) (k : Nat) :
    (deltaMerge existing fetched).filter (fun r => decide (r.id = k)) =
      (match lastWithId fetched k with
        | some r => some (normalize r)
        | none => lastWithId existing k).toList := by
  rw [deltaMerge_eq, values_filter_of_mapOk _ k (mapOk_merge existing fetched), mapGet_setAll]
  cases lastWithId fetched k with
  | some r => rfl
  | none =>
    simp only
    rw [mapGet_setAll]
    cases lastWithId existing k <;> simp [mapGet]

theorem deltaMerge_ne_nil (existing fetched : List Repo) (h : existing ≠ []) :
    deltaMerge existing fetched ≠ [] := by
  obtain ⟨x, xs, rfl⟩ := List.exists_cons_of_ne_nil h
  intro hnil
  have := (deltaMerge_mem_ids (x :: xs) fetched x.id).2 (Or.inl (by simp))
  rw [hnil] at this
  simp at this

/-! ## Lemmas: the paths of the cycle -/

theorem run_skipped (env : Env) (fuel : Nat) (file : Option CacheFile) (r : RateStatus)
    (hr : getRateLimit env = some r) (hb : bufferReached env (some r) = true) :
    fetchAndCacheRepos env fuel file =
      { outcome := Outcome.skipped "Rate limit buffer reached" r, file := file, requested := [] } := by
  unfold fetchAndCacheRepos
  simp only [hr, hb]

theorem run_proceeds (env : Env) (fuel : Nat) (file : Option CacheFile)
    (hb : bufferReached env (getRateLimit env) = false) :
    fetchAndCacheRepos env fuel file =
      match pageLoop env (lastKnownUpdate env.parse file) fuel 1 [] [] with
      | Paged.threw requested =>
        { outcome := Outcome.failed, file := file, requested := requested }
      | Paged.running requested =>
        { outcome := Outcome.running, file := file, requested := requested }
      | Paged.done fetched requested =>
        { outcome := Outcome.ok fetched.length
            (finalRepos (existingRepositories file) fetched
              (lastKnownUpdate env.parse file)).length
          file := some (CacheFile.snapshot
            { repositories := finalRepos (existingRepositories file) fetched
                (lastKnownUpdate env.parse file)
              last_updated := env.now
              total_count := (finalRepos (existingRepositories file) fetched
                (lastKnownUpdate env.parse file)).length })
          requested := requested } := by
  unfold fetchAndCacheRepos
  cases hr : getRateLimit env with
  | none => rfl
  | some r =>
    rw [hr] at hb
    simp only [hb]

theorem run_done (env : Env) (fuel : Nat) (file : Option CacheFile) (F : List Repo)
    (R : List Nat) (hb : bufferReached env (getRateLimit env) = false)
    (hloop : pageLoop env (lastKnownUpdate env.parse file) fuel 1 [] [] = Paged.done F R) :
    fetchAndCacheRepos env fuel file =
      { outcome := Outcome.ok F.length
          (finalRepos (existingRepositories file) F (lastKnownUpdate env.parse file)).length
        file := some (CacheFile.snapshot
          { repositories := finalRepos (existingRepositories file) F
              (lastKnownUpdate env.parse file)
            last_updated := env.now
            total_count := (finalRepos (existingRepositories file) F
              (lastKnownUpdate env.parse file)).length })
        requested := R } := by
  rw [run_proceeds env fuel file hb, hloop]

theorem bufferReached_cases (env : Env) :
    bufferReached env (getRateLimit env) = false ∨
      ∃ r, getRateLimit env = some r ∧ bufferReached env (some r) = true := by
  cases hr : getRateLimit env with
  | none => left; rfl
  | some r =>
    cases hb : bufferReached env (some r) with
    | false => left; rfl
    | true => right; exact ⟨r, rfl, hb⟩

theorem written_of_done (env : Env) (fuel : Nat) (file : Option CacheFile) (F : List Repo)
    (R : List Nat) (hb : bufferReached env (getRateLimit env) = false)
    (hloop : pageLoop env (lastKnownUpdate env.parse file) fuel 1 [] [] = Paged.done F R) :
    (fetchAndCacheRepos env fuel file).written =
      some { repositories := finalRepos (existingRepositories file) F
               (lastKnownUpdate env.parse file)
             last_updated := env.now
             total_count := (finalRepos (existingRepositories file) F
               (lastKnownUpdate env.parse file)).length } := by
  rw [run_done env fuel file F R hb hloop]
  rfl

theorem finalRepos_merge (prior F : List Repo) (wm : Option Int) (hne : prior ≠ [])
    (hF : F ≠ []) (hwm : truthyNum wm = true) :
    finalRepos (some prior) F wm = deltaMerge prior F := by
  have h1 : prior.length ≠ 0 := fun h => hne (List.length_eq_zero.1 h)
  have h2 : F.length ≠ 0 := fun h => hF (List.length_eq_zero.1 h)
  simp [finalRepos, mergeCondition, h1, h2, hwm]

theorem rightBiasedUnion_deltaMerge (prior F : List Repo) :
    RightBiasedUnion prior F (deltaMerge prior F) := by
  refine ⟨deltaMerge_mem_ids prior F, ?_, ?_⟩
  · intro pre r post hF hpost
    rw [deltaMerge_filter, hF, lastWithId_append_cons pre post r hpost]
    rfl
  · intro pre r post hP hpost hF
    rw [deltaMerge_filter, (lastWithId_eq_none_iff F r.id).2 hF, hP,
      lastWithId_append_cons pre post r hpost]
    rfl

theorem plentyHost_gate (ps : List (List Repo)) :
    bufferReached (plentyHost ps) (getRateLimit (plentyHost ps)) = false := by
  simp only [plentyHost, hostOf, getRateLimit, bufferReached, jsDiv, jsLt]
  norm_num

theorem scenarioHost_gate : bufferReached scenarioHost (getRateLimit scenarioHost) = false :=
  plentyHost_gate _

theorem mem_pagesFrom (env : Env) (p n q : Nat) (d : List Repo) (r : Repo)
    (hq : env.pages q = some d) (h1 : p ≤ q) (h2 : q < p + n) (hr : r ∈ d) :
    r ∈ pagesFrom env p n := by
  unfold pagesFrom
  rw [List.mem_flatMap]
  exact ⟨q, by simpa [List.mem_range'_1] using ⟨h1, h2⟩, by simpa [hq] using hr⟩

theorem pagesFrom_add (env : Env) (p a b : Nat) :
    pagesFrom env p (a + b) = pagesFrom env p a ++ pagesFrom env (p + a) b := by
  unfold pagesFrom
  rw [← List.flatMap_append, List.range'_append_1, Nat.add_comm]

theorem stopRule_nil (parse : String → Option Int) (wm : Option Int) :
    stopRule parse wm [] = true := by
  simp [stopRule]

theorem stopRule_of_not_truthy (parse : String → Option Int) (wm : Option Int)
    (h : truthyNum wm = false) (data : List Repo) :
    stopRule parse wm data = decide (data.length < 100) := by
  unfold stopRule
  cases wm with
  | none => simp
  | some T =>
    have hT : T = 0 := by simpa [truthyNum] using h
    subst hT
    cases lastActivity parse data <;> simp

theorem stopRule_true_cases (parse : String → Option Int) (wm : Option Int) (data : List Repo)
    (h : stopRule parse wm data = true) :
    data.length < 100 ∨
      ∃ T last t, wm = some T ∧ T ≠ 0 ∧ data.getLast? = some last ∧
        activityTs parse last = some t ∧ t < T := by
  unfold stopRule at h
  rw [Bool.or_eq_true] at h
  rcases h with h | h
  · right
    cases wm with
    | none => simp at h
    | some T =>
      cases hl : lastActivity parse data with
      | none => simp [hl] at h
      | some t =>
        simp only [hl, Bool.and_eq_true, decide_eq_true_eq] at h
        unfold lastActivity at hl
        cases hlast : data.getLast? with
        | none => simp [hlast] at hl
        | some last =>
          simp only [hlast, Option.some_bind] at hl
          exact ⟨T, last, t, rfl, h.1, rfl, hl, h.2⟩
  · left
    simpa using h

theorem deltaMerge_length_distinct (existing fetched : List Repo) :
    (deltaMerge existing fetched).length =
      ((deltaMerge existing fetched).map Repo.id).dedup.length := by
  rw [List.Nodup.dedup (deltaMerge_ids_nodup existing fetched), List.length_map]

/-! ## Lemmas: single runs and repeated runs -/

theorem jsLt_false_iff (x y : JsNum) :
    jsLt x y = false ↔ (jsGe x y = true ∨ x = JsNum.nan ∨ y = JsNum.nan) := by
  cases x <;> cases y <;> simp [jsLt, jsGe]

theorem pageLoop_head (env : Env) (wm : Option Int) (fuel : Nat) :
    (match pageLoop env wm (fuel + 1) 1 [] [] with
      | Paged.done _ R => R
      | Paged.threw R => R
      | Paged.running R => R).head? = some 1 := by
  cases h : pageLoop env wm (fuel + 1) 1 [] [] with
  | done F R =>
    obtain ⟨n, d, _, _, _, hR, _, _⟩ := pageLoop_done env wm _ _ _ _ _ _ h
    simp [hR, List.range'_succ]
  | threw R =>
    obtain ⟨n, _, _, hR⟩ := pageLoop_threw env wm _ _ _ _ _ h
    simp [hR, List.range'_succ]
  | running R =>
    obtain ⟨hR, _⟩ := pageLoop_running env wm _ _ _ _ _ h
    simp [hR, List.range'_succ]

theorem proceeded_of_gate (env : Env) (fuel : Nat) (file : Option CacheFile)
    (hb : bufferReached env (getRateLimit env) = false) :
    (fetchAndCacheRepos env (fuel + 1) file).proceeded := by
  have hh := pageLoop_head env (lastKnownUpdate env.parse file) fuel
  rw [run_proceeds env (fuel + 1) file hb]
  unfold Run.proceeded
  cases h : pageLoop env (lastKnownUpdate env.parse file) (fuel + 1) 1 [] [] with
  | done F R => rw [h] at hh; exact ⟨(by intro reason r hcon; cases hcon), hh⟩
  | threw R => rw [h] at hh; exact ⟨(by intro reason r hcon; cases hcon), hh⟩
  | running R => rw [h] at hh; exact ⟨(by intro reason r hcon; cases hcon), hh⟩

theorem pageLoop_done_answered (env : Env) (wm : Option Int) (fuel : Nat) (F : List Repo)
    (R : List Nat) (h : pageLoop env wm fuel 1 [] [] = Paged.done F R) :
    ∀ p ∈ R, ∃ d, env.pages p = some d := by
  obtain ⟨n, data, _, hdata, _, hR, _, hbefore⟩ := pageLoop_done env wm _ _ _ _ _ _ h
  intro p hp
  rw [hR] at hp
  simp only [List.nil_append, List.mem_range'_1] at hp
  by_cases hpn : p = 1 + n
  · exact ⟨data, by rw [hpn]; exact hdata⟩
  · obtain ⟨d, hd, _⟩ := hbefore (p - 1) (by omega)
    refine ⟨d, ?_⟩
    rw [← hd]; congr 1; omega

theorem pageLoop_running_answered (env : Env) (wm : Option Int) (fuel : Nat) (R : List Nat)
    (h : pageLoop env wm fuel 1 [] [] = Paged.running R) :
    ∀ p ∈ R, ∃ d, env.pages p = some d := by
  obtain ⟨hR, hall⟩ := pageLoop_running env wm _ _ _ _ _ h
  intro p hp
  rw [hR] at hp
  simp only [List.nil_append, List.mem_range'_1] at hp
  obtain ⟨d, hd⟩ := hall (p - 1) (by omega)
  refine ⟨d, ?_⟩
  rw [← hd]; congr 1; omega

theorem finalRepos_nil (existing : Option (List Repo)) (wm : Option Int) :
    finalRepos existing [] wm = [] := by
  cases existing <;> simp [finalRepos, mergeCondition]

theorem pageLoop_done_nil (env : Env) (wm : Option Int) (fuel : Nat) (R : List Nat)
    (h : pageLoop env wm fuel 1 [] [] = Paged.done [] R) :
    env.pages 1 = some [] ∧ R = [1] := by
  obtain ⟨n, data, _, hdata, _, hR, hF, hbefore⟩ := pageLoop_done env wm _ _ _ _ _ _ h
  have hF1 : pagesFrom env 1 n ++ data = [] := by simpa using hF.symm
  obtain ⟨hpre, hd⟩ := List.append_eq_nil.1 hF1
  subst hd
  cases n with
  | zero => exact ⟨by simpa using hdata, by simpa using hR⟩
  | succ k =>
    obtain ⟨d, hd, hs⟩ := hbefore 0 (Nat.succ_pos _)
    have hd1 : env.pages 1 = some d := by simpa using hd
    rw [pagesFrom_succ_left env 1 k d hd1] at hpre
    obtain ⟨hdnil, _⟩ := List.append_eq_nil.1 hpre
    subst hdnil
    rw [stopRule_nil] at hs
    cases hs

theorem pageLoop_done_last (env : Env) (wm : Option Int) (fuel : Nat) (F : List Repo)
    (R : List Nat) (h : pageLoop env wm fuel 1 [] [] = Paged.done F R) :
    ∃ n data, R = List.range' 1 (n + 1) ∧ R.getLast? = some (1 + n) ∧
      env.pages (1 + n) = some data ∧ stopRule env.parse wm data = true ∧
      F = pagesFrom env 1 n ++ data ∧
      ∀ i, i < n → ∃ d, env.pages (1 + i) = some d ∧ stopRule env.parse wm d = false := by
  obtain ⟨n, data, _, hdata, hs, hR, hF, hbefore⟩ := pageLoop_done env wm _ _ _ _ _ _ h
  refine ⟨n, data, by simpa using hR, ?_, hdata, hs, by simpa using hF, hbefore⟩
  rw [hR, List.nil_append, List.range'_1_concat, List.getLast?_concat]

theorem truthy_of_full_stop (parse : String → Option Int) (wm : Option Int) (data : List Repo)
    (hs : stopRule parse wm data = true) (hfull : perPage ≤ data.length) :
    truthyNum wm = true := by
  rcases stopRule_true_cases parse wm data hs with h | ⟨T, last, t, hT, hT0, _, _, _⟩
  · unfold perPage at hfull; omega
  · subst hT
    simpa [truthyNum] using hT0

theorem prior_of_truthy (parse : String → Option Int) (file : Option CacheFile)
    (h : truthyNum (lastKnownUpdate parse file) = true) :
    ∃ prior, existingRepositories file = some prior ∧ prior ≠ [] := by
  unfold lastKnownUpdate at h
  cases he : existingRepositories file with
  | none => simp [he, truthyNum] at h
  | some prior =>
    refine ⟨prior, rfl, ?_⟩
    rintro rfl
    simp [he, truthyNum, reduceWatermark_nil] at h

theorem threePages_cases (p : Nat) (d : List Repo) (hp : 1 ≤ p)
    (h : (plentyHost threePages).pages p = some d) :
    (p = 1 ∧ d = fullPage 1 "2024-02-01") ∨ (p = 2 ∧ d = fullPage 101 "2024-01-01") ∨
      (p = 3 ∧ d = [mkRepo 201 "2023-12-01"]) ∨ (3 < p ∧ d = []) := by
  rcases p with _ | _ | _ | _ | p
  · omega
  · left; exact ⟨rfl, by simpa [plentyHost, hostOf, servePages, threePages] using h.symm⟩
  · right; left
    exact ⟨rfl, by simpa [plentyHost, hostOf, servePages, threePages] using h.symm⟩
  · right; right; left
    exact ⟨rfl, by simpa [plentyHost, hostOf, servePages, threePages] using h.symm⟩
  · right; right; right
    exact ⟨by omega, by simpa [plentyHost, hostOf, servePages, threePages] using h.symm⟩

theorem activityTs_mkRepo_feb (k : Nat) :
    activityTs isoParse (mkRepo k "2024-02-01") = some 1706745600000 := by
  have h : activityArg (mkRepo k "2024-02-01") = "2024-02-01" := rfl
  unfold activityTs
  rw [h]
  decide

theorem activityTs_mkRepo_jan (k : Nat) :
    activityTs isoParse (mkRepo k "2024-01-01") = some 1704067200000 := by
  have h : activityArg (mkRepo k "2024-01-01") = "2024-01-01" := rfl
  unfold activityTs
  rw [h]
  decide

theorem activityTs_mkRepo_dec (k : Nat) :
    activityTs isoParse (mkRepo k "2023-12-01") = some 1701388800000 := by
  have h : activityArg (mkRepo k "2023-12-01") = "2023-12-01" := rfl
  unfold activityTs
  rw [h]
  decide

theorem threePages_ts (p : Nat) (d : List Repo) (r : Repo) (hp : 1 ≤ p)
    (h : (plentyHost threePages).pages p = some d) (hr : r ∈ d) :
    (p = 1 ∧ activityTs isoParse r = some 1706745600000) ∨
      (p = 2 ∧ activityTs isoParse r = some 1704067200000) ∨
      (p = 3 ∧ activityTs isoParse r = some 1701388800000) := by
  rcases threePages_cases p d hp h with ⟨h1, rfl⟩ | ⟨h1, rfl⟩ | ⟨h1, rfl⟩ | ⟨_, rfl⟩
  · left
    obtain ⟨i, _, rfl⟩ := List.mem_map.1 hr
    exact ⟨h1, activityTs_mkRepo_feb _⟩
  · right; left
    obtain ⟨i, _, rfl⟩ := List.mem_map.1 hr
    exact ⟨h1, activityTs_mkRepo_jan _⟩
  · right; right
    obtain rfl : r = mkRepo 201 "2023-12-01" := by simpa using hr
    exact ⟨h1, activityTs_mkRepo_dec _⟩
  · cases hr

theorem stopRule_of_short (parse : String → Option Int) (wm : Option Int) (data : List Repo)
    (h : data.length < 100) : stopRule parse wm data = true := by
  simp [stopRule, h]

theorem stopRule_of_older (parse : String → Option Int) (T : Int) (data : List Repo)
    (last : Repo) (t : Int) (hlast : data.getLast? = some last)
    (hts : activityTs parse last = some t) (hT : T ≠ 0) (ht : t < T) :
    stopRule parse (some T) data = true := by
  simp [stopRule, lastActivity, hlast, hts, hT, ht]

theorem stopRule_mono (parse : String → Option Int) (a b : Int) (data : List Repo)
    (ha : 0 ≤ a) (hab : a ≤ b) (h : stopRule parse (some a) data = true) :
    stopRule parse (some b) data = true := by
  rcases stopRule_true_cases parse (some a) data h with hlen | ⟨T, last, t, hT, hT0, hl, hts, htT⟩
  · exact stopRule_of_short parse _ data hlen
  · simp only [Option.some.injEq] at hT
    subst hT
    exact stopRule_of_older parse b data last t hl hts (by omega) (by omega)

theorem first_stop (env : Env) (wm : Option Int) (n : Nat) (d : List Repo)
    (hd : env.pages (1 + n) = some d) (hs : stopRule env.parse wm d = true)
    (hall : ∀ i, i < n → ∃ e, env.pages (1 + i) = some e) :
    ∃ k e, k ≤ n ∧ env.pages (1 + k) = some e ∧ stopRule env.parse wm e = true ∧
      ∀ i, i < k → ∃ c, env.pages (1 + i) = some c ∧ stopRule env.parse wm c = false := by
  induction n using Nat.strong_induction_on generalizing d with
  | _ n ih =>
    by_cases hex : ∃ j e, j < n ∧ env.pages (1 + j) = some e ∧ stopRule env.parse wm e = true
    · obtain ⟨j, e, hj, he, hse⟩ := hex
      obtain ⟨k, c, hk, hc, hsc, hmin⟩ :=
        ih j hj e he hse (fun i hi => hall i (by omega))
      exact ⟨k, c, by omega, hc, hsc, hmin⟩
    · refine ⟨n, d, le_refl _, hd, hs, ?_⟩
      intro i hi
      obtain ⟨c, hc⟩ := hall i hi
      refine ⟨c, hc, ?_⟩
      cases hsc : stopRule env.parse wm c with
      | false => rfl
      | true => exact absurd ⟨i, c, hi, hc, hsc⟩ hex

theorem merge_stable (M0 : List (Nat × Repo)) (F1 F2 : List Repo) (hM0 : MapOk M0)
    (hids : (F1.map Repo.id).Nodup) (hsub : ∀ r ∈ F2, r ∈ F1) :
    deltaMerge ((setAll normalize M0 F1).map Prod.snd) F2 =
      (setAll normalize M0 F1).map Prod.snd := by
  have hM1 : MapOk (setAll normalize M0 F1) := mapOk_setAll normalize normalize_id F1 M0 hM0
  rw [deltaMerge_eq, setAll_id_of_mapOk _ hM1, setAll_fixed]
  intro r hr
  rw [mapGet_setAll, lastWithId_of_nodup F1 hids r (hsub r hr)]

theorem finalRepos_as_map (existing : Option (List Repo)) (F : List Repo) (wm : Option Int)
    (hids : (F.map Repo.id).Nodup) :
    ∃ M0, MapOk M0 ∧ finalRepos existing F wm = (setAll normalize M0 F).map Prod.snd := by
  unfold finalRepos
  by_cases hc : mergeCondition existing F wm = true
  · refine ⟨setAll (fun r => r) [] (existing.getD []),
      mapOk_setAll (fun r => r) (fun _ => rfl) _ _ mapOk_nil, ?_⟩
    simp only [hc, if_true]
    exact deltaMerge_eq _ _
  · refine ⟨[], mapOk_nil, ?_⟩
    simp only [hc, if_false]
    rw [setAll_fresh normalize F [] (by simpa using hids)]
    simp [List.map_map, Function.comp_def]

theorem finalRepos_ne_nil (existing : Option (List Repo)) (F : List Repo) (wm : Option Int)
    (hF : F ≠ []) : finalRepos existing F wm ≠ [] := by
  unfold finalRepos
  by_cases hc : mergeCondition existing F wm = true
  · simp only [hc, if_true]
    cases existing with
    | none => simp [mergeCondition] at hc
    | some prior =>
      apply deltaMerge_ne_nil
      rintro rfl
      simp [mergeCondition] at hc
  · simp only [hc, if_false]
    simpa using hF

theorem finalRepos_of_not_truthy (existing : Option (List Repo)) (F : List Repo)
    (wm : Option Int) (h : truthyNum wm = false) :
    finalRepos existing F wm = F.map normalize := by
  cases existing <;> simp [finalRepos, mergeCondition, h]

theorem lastKnownUpdate_snapshot (parse : String → Option Int) (s : Snapshot) :
    lastKnownUpdate parse (some (CacheFile.snapshot s)) =
      some (reduceWatermark parse s.repositories) := rfl

theorem lastKnownUpdate_nonneg (parse : String → Option Int) (file : Option CacheFile) (w : Int)
    (h : lastKnownUpdate parse file = some w) : 0 ≤ w := by
  unfold lastKnownUpdate at h
  cases he : existingRepositories file with
  | none => simp [he] at h
  | some repos =>
    simp only [he, Option.some.injEq] at h
    rw [← h]
    exact reduceWatermark_nonneg parse repos

theorem second_loop (env : Env) (fuel : Nat) (file : Option CacheFile) (F1 : List Repo)
    (R1 : List Nat) (b : Int)
    (hloop : pageLoop env (lastKnownUpdate env.parse file) fuel 1 [] [] = Paged.done F1 R1)
    (hwm : F1 ≠ [] → ∀ w, lastKnownUpdate env.parse file = some w → w ≤ b) :
    ∃ F2 R2, pageLoop env (some b) fuel 1 [] [] = Paged.done F2 R2 ∧
      (∀ r ∈ F2, r ∈ F1) ∧ (F2 = [] → F1 = []) ∧
      (truthyNum (some b) = false → F2 = F1 ∧ (F1 ≠ [] →
        truthyNum (lastKnownUpdate env.parse file) = false)) := by
  obtain ⟨n1, d1, hn1, hd1, hs1, hR1, hF1, hbefore1⟩ :=
    pageLoop_done env _ _ _ _ _ _ _ hloop
  simp only [List.nil_append] at hF1
  have hstop2 : stopRule env.parse (some b) d1 = true := by
    rcases stopRule_true_cases env.parse _ d1 hs1 with
      hlen | ⟨T, last, t, hT, hT0, hl, hts, htT⟩
    · exact stopRule_of_short env.parse _ d1 hlen
    · have hne : F1 ≠ [] := by
        rw [hF1]
        intro hnil
        have := (List.append_eq_nil.1 hnil).2
        subst this
        simp at hl
      have h0 := lastKnownUpdate_nonneg env.parse file T hT
      exact stopRule_of_older env.parse b d1 last t hl hts
        (by have := hwm hne T hT; omega) (by have := hwm hne T hT; omega)
  obtain ⟨n2, d2, hn2, hd2, hs2, hbefore2⟩ := first_stop env (some b) n1 d1 hd1 hstop2
    (fun i hi => by obtain ⟨e, he, _⟩ := hbefore1 i hi; exact ⟨e, he⟩)
  have hloop2 := pageLoop_complete env (some b) n2 fuel 1 [] [] d2 (by omega) hd2 hs2 hbefore2
  simp only [List.nil_append] at hloop2
  have hF1' : F1 = pagesFrom env 1 (n1 + 1) := by
    rw [hF1, pagesFrom_succ_right env 1 n1 d1 hd1]
  have hF2' : pagesFrom env 1 n2 ++ d2 = pagesFrom env 1 (n2 + 1) := by
    rw [pagesFrom_succ_right env 1 n2 d2 hd2]
  have hsplit : F1 = (pagesFrom env 1 n2 ++ d2) ++ pagesFrom env (1 + (n2 + 1)) (n1 - n2) := by
    rw [hF1', hF2', ← pagesFrom_add]
    congr 1
    omega
  refine ⟨_, _, hloop2, ?_, ?_, ?_⟩
  · intro r hr
    rw [hsplit]
    exact List.mem_append_left _ hr
  · intro hnil
    rw [hnil] at hloop2
    obtain ⟨hp1, _⟩ := pageLoop_done_nil env _ fuel _ hloop2
    have hp1' : env.pages (1 + 0) = some [] := by simpa using hp1
    have := pageLoop_complete env (lastKnownUpdate env.parse file) 0 fuel 1 [] [] []
      (by omega) hp1' (stopRule_nil _ _) (fun i hi => by omega)
    rw [hloop] at this
    simp only [Paged.done.injEq] at this
    rw [this.1]
    simp [pagesFrom_zero]
  · intro hb
    have hW1 : F1 ≠ [] → truthyNum (lastKnownUpdate env.parse file) = false := by
      intro hne
      cases hw : lastKnownUpdate env.parse file with
      | none => rfl
      | some w =>
        have h0 := lastKnownUpdate_nonneg env.parse file w hw
        have h1 := hwm hne w hw
        have hb0 : b = 0 := by simpa [truthyNum] using hb
        have : w = 0 := by omega
        simp [truthyNum, this]
    refine ⟨?_, hW1⟩
    by_cases hne : F1 = []
    · rw [hne] at hloop
      obtain ⟨hp1, _⟩ := pageLoop_done_nil env _ fuel _ hloop
      have hp1' : env.pages (1 + 0) = some [] := by simpa using hp1
      have := pageLoop_complete env (some b) 0 fuel 1 [] [] []
        (by omega) hp1' (stopRule_nil _ _) (fun i hi => by omega)
      rw [hloop2] at this
      simp only [Paged.done.injEq] at this
      rw [this.1, hne]
      simp [pagesFrom_zero]
    · have hW := hW1 hne
      have hsame : ∀ data, stopRule env.parse (some b) data =
          stopRule env.parse (lastKnownUpdate env.parse file) data := by
        intro data
        rw [stopRule_of_not_truthy env.parse _ hb, stopRule_of_not_truthy env.parse _ hW]
      have := pageLoop_complete env (some b) n1 fuel 1 [] [] d1 hn1 hd1
        (by rw [hsame]; exact hs1)
        (fun i hi => by
          obtain ⟨e, he, hse⟩ := hbefore1 i hi
          exact ⟨e, he, by rw [hsame]; exact hse⟩)
      rw [hloop2] at this
      simp only [Paged.done.injEq, List.nil_append] at this
      rw [this.1, hF1]

/-! ## The stop rule of the code and the stop rule of the claim -/

theorem activityTs_eq_claimActivity (parse : String → Option Int) (r : Repo)
    (h : truthyStr r.updated_at = true ∨ truthyStr r.pushed_at = true) :
    activityTs parse r = claimActivity parse r := by
  unfold activityTs activityArg claimActivity
  by_cases h1 : truthyStr r.updated_at = true
  · simp [h1]
  · have h2 : truthyStr r.pushed_at = true := by
      rcases h with h | h
      · exact absurd h h1
      · exact h
    simp [h1, h2]

theorem stopRule_eq_claimStopRule (parse : String → Option Int) (wm : Option Int)
    (data : List Repo) (hT : ∀ T, wm = some T → T ≠ 0)
    (hlast : ∀ r, data.getLast? = some r →
      truthyStr r.updated_at = true ∨ truthyStr r.pushed_at = true) :
    stopRule parse wm data = claimStopRule parse wm data := by
  unfold stopRule claimStopRule lastActivity
  congr 1
  cases hl : data.getLast? with
  | none => simp
  | some r =>
    have hr := activityTs_eq_claimActivity parse r (hlast r hl)
    simp only [Option.some_bind, hr]
    cases wm with
    | none => rfl
    | some T =>
      have h0 := hT T rfl
      cases claimActivity parse r with
      | none => rfl
      | some t => simp [h0]

/-- A watermark of 0: the prior snapshot dates its record at the epoch, so the maximum
of the parsed timestamps is 0; the last record of the full page 1 is older, and the
rule of the claim stops there, while the code goes on to page 2. -/
theorem epoch_watermark_run :
    lastKnownUpdate epochHost.parse epochPrior = some 0 ∧
      epochHost.pages 1 = some epochPage ∧
      claimStopRule epochHost.parse (some 0) epochPage = true ∧
      pageLoop epochHost (some 0) 5 1 [] [] =
        Paged.done (epochPage ++ [mkRepo 101 "1969-12-31T23:59:58Z"]) [1, 2] := by
  refine ⟨by decide, rfl, by decide, by decide⟩

/-! ## A remote that lists one id twice -/

/-- With no prior snapshot and a remote that lists id 100 twice with different
content, the first run writes 101 records in which the renamed record is the last of
id 100; the second run stops on page 1 and files the other record under id 100. -/
theorem repeat_with_duplicate_ids :
    (fetchAndCacheRepos twiceHost 5 none).written =
        some { repositories := mixedPage ++ [renamed100]
               last_updated := "2024-03-01T00:00:00.000Z"
               total_count := 101 } ∧
      lastWithId (mixedPage ++ [renamed100]) 100 = some renamed100 ∧
      ∃ s2, (fetchAndCacheRepos twiceHost 5 (fetchAndCacheRepos twiceHost 5 none).file).written
          = some s2 ∧
        s2.total_count = 100 ∧
        lastWithId s2.repositories 100 = some (mkRepo 100 "2024-02-01") := by
  have hl1 : pageLoop twiceHost (lastKnownUpdate twiceHost.parse none) 5 1 [] [] =
      Paged.done (mixedPage ++ [renamed100]) [1, 2] := by decide
  have hfile1 : (fetchAndCacheRepos twiceHost 5 none).file =
      some (CacheFile.snapshot
        { repositories := mixedPage ++ [renamed100]
          last_updated := "2024-03-01T00:00:00.000Z"
          total_count := 101 }) := by
    rw [run_done twiceHost 5 none _ _ (plentyHost_gate _) hl1]
    decide
  have hl2 : pageLoop twiceHost (lastKnownUpdate twiceHost.parse
      (some (CacheFile.snapshot
        { repositories := mixedPage ++ [renamed100]
          last_updated := "2024-03-01T00:00:00.000Z"
          total_count := 101 }))) 5 1 [] [] = Paged.done mixedPage [1] := by decide
  have h2 := written_of_done twiceHost 5 _ _ _ (plentyHost_gate _) hl2
  refine ⟨?_, by decide, _, (by rw [hfile1]; exact h2), by decide, by decide⟩
  rw [written_of_done twiceHost 5 none _ _ (plentyHost_gate _) hl1]
  decide

/-! ## The claims -/

/-- C1: the delta merge of `fetchAndCacheRepos` is a right-biased union keyed by id.
For every prior snapshot whose repositories list is non-empty and yields a watermark,
and every non-empty fetched list, the cycle writes a snapshot whose ids are the prior
ids and the fetched ids, in which every fetched id holds `normalize` of the last
fetched record with that id, and every id found only in the prior list holds its prior
record unchanged. -/
theorem delta_merge_right_biased (env : Env) (fuel : Nat) (file : Option CacheFile)
    (prior F : List Repo) (R : List Nat)
    (hgate : bufferReached env (getRateLimit env) = false)
    (hprior : existingRepositories file = some prior) (hne : prior ≠ [])
    (hwm : truthyNum (lastKnownUpdate env.parse file) = true)
    (hloop : pageLoop env (lastKnownUpdate env.parse file) fuel 1 [] [] = Paged.done F R)
    (hF : F ≠ []) :
    ∃ s, (fetchAndCacheRepos env fuel file).written = some s ∧
      RightBiasedUnion prior F s.repositories ∧
      s.total_count = s.repositories.length := by
  refine ⟨_, written_of_done env fuel file F R hgate hloop, ?_, rfl⟩
  simp only [hprior]
  rw [finalRepos_merge prior F _ hne hF hwm]
  exact rightBiasedUnion_deltaMerge prior F

/-- C1, the scenario of the specification: prior `{id 1 @2024-01-01, id 2 @2024-01-05}`
and one fetched page `[{id 2 @2024-02-01}, {id 3 @2024-01-10}]` of raw records give
`{id 1 unchanged, id 2 @2024-02-01, id 3}`, normalized, with `total_count` 3. -/
theorem delta_merge_right_biased_witness :
    (fetchAndCacheRepos scenarioHost 1 scenarioPrior).written =
        some { repositories :=
                 [mkRepo 1 "2024-01-01", mkRepo 2 "2024-02-01", mkRepo 3 "2024-01-10"]
               last_updated := "2024-03-01T00:00:00.000Z"
               total_count := 3 } ∧
      ∃ s, (fetchAndCacheRepos scenarioHost 1 scenarioPrior).written = some s ∧
        RightBiasedUnion [mkRepo 1 "2024-01-01", mkRepo 2 "2024-01-05"]
          [rawRepo 2 "2024-02-01", rawRepo 3 "2024-01-10"] s.repositories ∧
        s.total_count = s.repositories.length := by
  have hloop : pageLoop scenarioHost (lastKnownUpdate scenarioHost.parse scenarioPrior) 1 1 [] []
      = Paged.done [rawRepo 2 "2024-02-01", rawRepo 3 "2024-01-10"] [1] := by decide
  refine ⟨?_, delta_merge_right_biased scenarioHost 1 scenarioPrior
    [mkRepo 1 "2024-01-01", mkRepo 2 "2024-01-05"]
    [rawRepo 2 "2024-02-01", rawRepo 3 "2024-01-10"] [1]
    scenarioHost_gate rfl (by decide) (by decide) hloop (by decide)⟩
  rw [written_of_done scenarioHost 1 scenarioPrior _ _ scenarioHost_gate hloop]
  decide

/-- C2, as the code has it: the stop point of the pagination loop of
`fetchAndCacheRepos`. For every value of `lastKnownUpdate` and every remote, if `N` is
the first page on which the code's stop rule holds (`lastKnownUpdate` is not 0 and the
last record's `Date.parse(updated_at || pushed_at || 0)` is a number strictly below
it, or the page has fewer than 100 records; with `lastKnownUpdate` `null` or 0 only the
latter) and the pages 1..N are answered, then with fuel for `N` iterations the loop
requests exactly the pages 1, 2, ..., N in order and returns the concatenation of
the pages 1..N. -/
theorem pagination_stop_point (env : Env) (wm : Option Int) (N fuel : Nat)
    (hN : 1 ≤ N) (hfuel : N ≤ fuel)
    (hanswered : ∀ p, 1 ≤ p → p ≤ N → ∃ data, env.pages p = some data)
    (hbefore : ∀ p data, 1 ≤ p → p < N → env.pages p = some data →
      stopRule env.parse wm data = false)
    (hstop : ∀ data, env.pages N = some data → stopRule env.parse wm data = true) :
    pageLoop env wm fuel 1 [] [] = Paged.done (pagesFrom env 1 N) (List.range' 1 N) := by
  obtain ⟨n, rfl⟩ : ∃ n, N = n + 1 := ⟨N - 1, by omega⟩
  obtain ⟨data, hdata⟩ := hanswered (n + 1) (by omega) (le_refl _)
  have hdata1 : env.pages (1 + n) = some data := by rw [← hdata]; congr 1; omega
  have hb : ∀ i, i < n → ∃ d, env.pages (1 + i) = some d ∧ stopRule env.parse wm d = false := by
    intro i hi
    obtain ⟨d, hd⟩ := hanswered (1 + i) (by omega) (by omega)
    exact ⟨d, hd, hbefore (1 + i) d (by omega) (by omega) hd⟩
  have := pageLoop_complete env wm n fuel 1 [] [] data (by omega) hdata1 (hstop data hdata) hb
  rw [this, pagesFrom_succ_right env 1 n data hdata1]
  simp

/-- C2 on a remote of three pages with the watermark 2024-01-05: page 1 (100 records of
2024-02-01) does not stop the loop, page 2 (100 records of 2024-01-01) does, and
page 3 is never requested. -/
theorem pagination_stop_point_witness :
    pageLoop (plentyHost threePages) (some 1704412800000) 5 1 [] [] =
      Paged.done (pagesFrom (plentyHost threePages) 1 2) (List.range' 1 2) ∧
    List.range' 1 2 = [1, 2] ∧
    pagesFrom (plentyHost threePages) 1 2 = fullPage 1 "2024-02-01" ++ fullPage 101 "2024-01-01" ∧
    (plentyHost threePages).pages 3 = some [mkRepo 201 "2023-12-01"] := by
  refine ⟨pagination_stop_point (plentyHost threePages) (some 1704412800000) 2 5
    (by decide) (by decide) ?_ ?_ ?_, by decide, by decide, by decide⟩
  · intro p _ _
    exact ⟨_, rfl⟩
  · intro p data h1 h2 hp
    obtain rfl : p = 1 := by omega
    obtain rfl : fullPage 1 "2024-02-01" = data := by
      simpa [plentyHost, hostOf, servePages, threePages] using hp
    decide
  · intro data hp
    obtain rfl : fullPage 101 "2024-01-01" = data := by
      simpa [plentyHost, hostOf, servePages, threePages] using hp
    decide

/-- C2 as stated fails: with the watermark 2024-01-05 and a full page 1 whose last
record has neither `updated_at` nor `pushed_at`, the rule of the claim does not hold
on page 1 and holds on page 2, so the claim has the loop fetch pages 1 and 2; the
code parses the literal 0 as 2000-01-01, older than the watermark, stops after page 1
and never requests page 2. -/
theorem pagination_stop_point_counterexample :
    undatedHost.pages 1 = some undatedPage ∧
      undatedHost.pages 2 = some [mkRepo 101 "2024-02-01"] ∧
      claimStopRule undatedHost.parse (some 1704412800000) undatedPage = false ∧
      claimStopRule undatedHost.parse (some 1704412800000) [mkRepo 101 "2024-02-01"] = true ∧
      activityTs undatedHost.parse (undatedRepo 100) = some 946684800000 ∧
      pageLoop undatedHost (some 1704412800000) 5 1 [] [] = Paged.done undatedPage [1] := by
  refine ⟨rfl, rfl, by decide, by decide, by decide, by decide⟩

/-- C3, as the code has it: the cycle is skipped exactly when the quota check returned
a RateStatus and `remaining / limit < buffer` holds; it then returns
`{skipped: true, reason, rate}` with that same RateStatus, requests no page and leaves
the file as it was. In every other case it proceeds to pagination: when the quota
check returned null, when `remaining / limit >= buffer`, and also when the comparison
is undefined (`NaN` on either side), `<` being false without `>=` being true only then. -/
theorem quota_gate (env : Env) (fuel : Nat) (file : Option CacheFile) :
    (∀ r, getRateLimit env = some r →
      jsLt (jsDiv env.toDouble r.remaining r.limit) env.buffer = true →
      fetchAndCacheRepos env (fuel + 1) file =
        { outcome := Outcome.skipped "Rate limit buffer reached" r
          file := file
          requested := [] }) ∧
    (∀ r, getRateLimit env = some r →
      jsLt (jsDiv env.toDouble r.remaining r.limit) env.buffer = false →
      (fetchAndCacheRepos env (fuel + 1) file).proceeded) ∧
    (getRateLimit env = none → (fetchAndCacheRepos env (fuel + 1) file).proceeded) ∧
    (∀ x y, jsLt x y = false ↔ (jsGe x y = true ∨ x = JsNum.nan ∨ y = JsNum.nan)) := by
  refine ⟨?_, ?_, ?_, jsLt_false_iff⟩
  · intro r hr hlt
    exact run_skipped env (fuel + 1) file r hr (by simpa [bufferReached] using hlt)
  · intro r hr hlt
    exact proceeded_of_gate env fuel file (by rw [hr]; simpa [bufferReached] using hlt)
  · intro hr
    exact proceeded_of_gate env fuel file (by rw [hr]; rfl)

/-- C3 on two hosts: with 3 requests left out of 60 the cycle is skipped and reports the
RateStatus; with 4999 left out of 5000 it proceeds. -/
theorem quota_gate_witness :
    fetchAndCacheRepos starvedHost 1 scenarioPrior =
        { outcome := Outcome.skipped "Rate limit buffer reached"
            { limit := 60, remaining := 3, reset := 1709258400 }
          file := scenarioPrior
          requested := [] } ∧
      (fetchAndCacheRepos scenarioHost 1 scenarioPrior).proceeded := by
  refine ⟨(quota_gate starvedHost 0 scenarioPrior).1 _ rfl ?_,
    (quota_gate scenarioHost 0 scenarioPrior).2.1
      { limit := 5000, remaining := 4999, reset := 1709258400 } rfl ?_⟩
  · simp only [starvedHost, hostOf, jsDiv, jsLt]
    norm_num
  · simp only [scenarioHost, plentyHost, hostOf, jsDiv, jsLt]
    norm_num

/-- C3 as stated fails: with a RateStatus of limit 0 and remaining 0 the ratio is `NaN`,
`remaining / limit >= buffer` is false, and the cycle proceeds all the same: it
requests page 1 and writes the snapshot. -/
theorem quota_gate_counterexample :
    getRateLimit zeroLimitHost = some { limit := 0, remaining := 0, reset := 0 } ∧
      jsGe (jsDiv zeroLimitHost.toDouble 0 0) zeroLimitHost.buffer = false ∧
      fetchAndCacheRepos zeroLimitHost 1 none =
        { outcome := Outcome.ok 1 1
          file := some (CacheFile.snapshot
            { repositories := [mkRepo 1 "2024-01-01"]
              last_updated := "2024-03-01T00:00:00.000Z"
              total_count := 1 })
          requested := [1] } := by
  refine ⟨rfl, rfl, ?_⟩
  decide

/-- C4: a skipped or failed cycle leaves the persisted snapshot untouched. For every run
of `fetchAndCacheRepos`: if it returns the skipped value, the file is as before and no
page was requested; if it fails, the file is as before; whenever the request of some
requested page throws, the run fails and the file is as before; and if the file
changed at all, the run returned the success value and every page it requested was
answered. -/
theorem failed_or_skipped_keeps_snapshot (env : Env) (fuel : Nat) (file : Option CacheFile) :
    ((∃ reason r, (fetchAndCacheRepos env fuel file).outcome = Outcome.skipped reason r) →
      (fetchAndCacheRepos env fuel file).file = file ∧
        (fetchAndCacheRepos env fuel file).requested = []) ∧
    ((fetchAndCacheRepos env fuel file).outcome = Outcome.failed →
      (fetchAndCacheRepos env fuel file).file = file) ∧
    ((∃ p, p ∈ (fetchAndCacheRepos env fuel file).requested ∧ env.pages p = none) →
      (fetchAndCacheRepos env fuel file).outcome = Outcome.failed ∧
        (fetchAndCacheRepos env fuel file).file = file) ∧
    ((fetchAndCacheRepos env fuel file).file ≠ file →
      (∃ c m, (fetchAndCacheRepos env fuel file).outcome = Outcome.ok c m) ∧
        ∀ p ∈ (fetchAndCacheRepos env fuel file).requested, ∃ d, env.pages p = some d) := by
  rcases bufferReached_cases env with hb | ⟨r, hr, hb⟩
  · rw [run_proceeds env fuel file hb]
    cases h : pageLoop env (lastKnownUpdate env.parse file) fuel 1 [] [] with
    | done F R =>
      have hans := pageLoop_done_answered env _ fuel F R h
      refine ⟨?_, ?_, ?_, ?_⟩
      · rintro ⟨reason, r, hcon⟩; cases hcon
      · intro hcon; cases hcon
      · rintro ⟨p, hp, hnone⟩
        obtain ⟨d, hd⟩ := hans p hp
        rw [hnone] at hd; cases hd
      · intro _
        exact ⟨⟨_, _, rfl⟩, hans⟩
    | threw R =>
      refine ⟨?_, ?_, ?_, ?_⟩
      · rintro ⟨reason, r, hcon⟩; cases hcon
      · intro _; rfl
      · intro _; exact ⟨rfl, rfl⟩
      · intro hcon; exact absurd rfl hcon
    | running R =>
      have hans := pageLoop_running_answered env _ fuel R h
      refine ⟨?_, ?_, ?_, ?_⟩
      · rintro ⟨reason, r, hcon⟩; cases hcon
      · intro hcon; cases hcon
      · rintro ⟨p, hp, hnone⟩
        obtain ⟨d, hd⟩ := hans p hp
        rw [hnone] at hd; cases hd
      · intro hcon; exact absurd rfl hcon
  · rw [run_skipped env fuel file r hr hb]
    refine ⟨?_, ?_, ?_, ?_⟩
    · intro _; exact ⟨rfl, rfl⟩
    · intro _; rfl
    · rintro ⟨p, hp, _⟩; cases hp
    · intro hcon; exact absurd rfl hcon

/-- C4 on two runs over the scenario's prior snapshot: the request of page 2 throws and
the run fails with the file as before; the quota is short and the run is skipped
with the file as before. -/
theorem failed_or_skipped_keeps_snapshot_witness :
    ((fetchAndCacheRepos brokenHost 5 scenarioPrior).outcome = Outcome.failed ∧
      (fetchAndCacheRepos brokenHost 5 scenarioPrior).file = scenarioPrior) ∧
    ((fetchAndCacheRepos starvedHost 5 scenarioPrior).file = scenarioPrior ∧
      (fetchAndCacheRepos starvedHost 5 scenarioPrior).requested = []) := by
  refine ⟨(failed_or_skipped_keeps_snapshot brokenHost 5 scenarioPrior).2.2.1
      ⟨2, by decide, rfl⟩,
    (failed_or_skipped_keeps_snapshot starvedHost 5 scenarioPrior).1
      ⟨"Rate limit buffer reached", { limit := 60, remaining := 3, reset := 1709258400 }, ?_⟩⟩
  rw [run_skipped starvedHost 5 scenarioPrior
    { limit := 60, remaining := 3, reset := 1709258400 } rfl]
  simp only [starvedHost, hostOf, bufferReached, jsDiv, jsLt]
  norm_num

/-- C5, as the code has it: idempotence of the sync cycle when the fetched ids are
pairwise distinct and the watermark does not regress. For every prior persisted state
and every fixed remote, if the first run proceeds and fetches a list of records with
pairwise distinct ids, and (unless it fetched nothing) the watermark derived from the
snapshot it wrote is not lower than the watermark it used, then a second run on the
same remote also succeeds and writes the same repositories, with the same
`total_count`. -/
theorem sync_idempotent (env : Env) (fuel : Nat) (file : Option CacheFile) (F1 : List Repo)
    (R1 : List Nat)
    (hgate : bufferReached env (getRateLimit env) = false)
    (hloop : pageLoop env (lastKnownUpdate env.parse file) fuel 1 [] [] = Paged.done F1 R1)
    (hids : (F1.map Repo.id).Nodup)
    (hwm : F1 ≠ [] → ∀ w, lastKnownUpdate env.parse file = some w →
      w ≤ reduceWatermark env.parse
        (finalRepos (existingRepositories file) F1 (lastKnownUpdate env.parse file))) :
    ∃ s1 s2, (fetchAndCacheRepos env fuel file).written = some s1 ∧
      (fetchAndCacheRepos env fuel (fetchAndCacheRepos env fuel file).file).written = some s2 ∧
      s2.repositories = s1.repositories ∧ s2.total_count = s1.total_count := by
  have hrun1 := run_done env fuel file F1 R1 hgate hloop
  have hw1 := written_of_done env fuel file F1 R1 hgate hloop
  generalize hS1 : finalRepos (existingRepositories file) F1 (lastKnownUpdate env.parse file)
    = S1 at hrun1 hw1 hwm
  have hfile1 : (fetchAndCacheRepos env fuel file).file = some (CacheFile.snapshot
      { repositories := S1, last_updated := env.now, total_count := S1.length }) := by
    rw [hrun1]
  rw [hfile1]
  obtain ⟨F2, R2, hloop2, hsub, hnil, hfalsy⟩ :=
    second_loop env fuel file F1 R1 (reduceWatermark env.parse S1) hloop hwm
  have hloop2' : pageLoop env (lastKnownUpdate env.parse (some (CacheFile.snapshot
      { repositories := S1, last_updated := env.now, total_count := S1.length })))
      fuel 1 [] [] = Paged.done F2 R2 := by
    rw [lastKnownUpdate_snapshot]
    exact hloop2
  have hw2 := written_of_done env fuel _ F2 R2 hgate hloop2'
  have hfinal : finalRepos (some S1) F2 (some (reduceWatermark env.parse S1)) = S1 := by
    by_cases hc : mergeCondition (some S1) F2 (some (reduceWatermark env.parse S1)) = true
    · obtain ⟨M0, hM0, hmap⟩ := finalRepos_as_map (existingRepositories file) F1
        (lastKnownUpdate env.parse file) hids
      rw [hS1] at hmap
      have hst := merge_stable M0 F1 F2 hM0 hids hsub
      rw [← hmap] at hst
      simp only [finalRepos, hc, if_true, Option.getD_some]
      exact hst
    · have hc' : mergeCondition (some S1) F2 (some (reduceWatermark env.parse S1)) = false := by
        simpa using hc
      have hrep : finalRepos (some S1) F2 (some (reduceWatermark env.parse S1))
          = F2.map normalize := by
        simp [finalRepos, hc']
      rw [hrep]
      by_cases hF2 : F2 = []
      · have hF1 := hnil hF2
        subst hF2
        rw [← hS1, hF1, finalRepos_nil]
        rfl
      · have hF1ne : F1 ≠ [] := by
          obtain ⟨x, xs, rfl⟩ := List.exists_cons_of_ne_nil hF2
          intro h
          have := hsub x (List.mem_cons_self _ _)
          rw [h] at this
          cases this
        have hS1ne : S1 ≠ [] := by
          rw [← hS1]
          exact finalRepos_ne_nil _ _ _ hF1ne
        have hb : truthyNum (some (reduceWatermark env.parse S1)) = false := by
          have h1 : S1.length ≠ 0 := fun h => hS1ne (List.length_eq_zero.1 h)
          have h2 : F2.length ≠ 0 := fun h => hF2 (List.length_eq_zero.1 h)
          simpa [mergeCondition, h1, h2] using hc'
        obtain ⟨hF21, hW1⟩ := hfalsy hb
        rw [hF21, ← hS1, finalRepos_of_not_truthy _ _ _ (hW1 hF1ne)]
  refine ⟨_, _, hw1, hw2, ?_, ?_⟩
  · simpa [existingRepositories, lastKnownUpdate_snapshot] using hfinal
  · have : finalRepos (existingRepositories (some (CacheFile.snapshot
        { repositories := S1, last_updated := env.now, total_count := S1.length }))) F2
        (lastKnownUpdate env.parse (some (CacheFile.snapshot
        { repositories := S1, last_updated := env.now, total_count := S1.length }))) = S1 := by
      simpa [existingRepositories, lastKnownUpdate_snapshot] using hfinal
    simp only [this]

/-- C5 on the scenario of the specification: the second run writes the same three
records as the first. -/
theorem sync_idempotent_witness :
    (List.map Repo.id [rawRepo 2 "2024-02-01", rawRepo 3 "2024-01-10"]).Nodup ∧
      ∃ s1 s2, (fetchAndCacheRepos scenarioHost 1 scenarioPrior).written = some s1 ∧
        (fetchAndCacheRepos scenarioHost 1
          (fetchAndCacheRepos scenarioHost 1 scenarioPrior).file).written = some s2 ∧
        s2.repositories = s1.repositories ∧ s2.total_count = s1.total_count := by
  have hw : lastKnownUpdate scenarioHost.parse scenarioPrior = some 1704412800000 := by decide
  refine ⟨by decide, sync_idempotent scenarioHost 1 scenarioPrior
    [rawRepo 2 "2024-02-01", rawRepo 3 "2024-01-10"] [1] scenarioHost_gate (by decide)
    (by decide) ?_⟩
  intro _ w hw1
  rw [hw] at hw1
  simp only [Option.some.injEq] at hw1
  subst hw1
  decide

/-- C5 as stated fails: the prior snapshot dates id 1 at 2024-03-01, the remote lists
ids 1..100 at 2024-02-01 on page 1 and id 101 on page 2. The first run stops on page 1
and writes 100 records; the second run, on the same remote, derives the watermark
2024-02-01, goes on to page 2 and writes 101 records. -/
theorem sync_idempotent_counterexample :
    (fetchAndCacheRepos regressHost 5 regressPrior).written =
        some { repositories := fullPage 1 "2024-02-01"
               last_updated := "2024-03-01T00:00:00.000Z"
               total_count := 100 } ∧
      (fetchAndCacheRepos regressHost 5
        (fetchAndCacheRepos regressHost 5 regressPrior).file).written =
        some { repositories := fullPage 1 "2024-02-01" ++ [mkRepo 101 "2024-01-01"]
               last_updated := "2024-03-01T00:00:00.000Z"
               total_count := 101 } := by
  have hl1 : pageLoop regressHost (lastKnownUpdate regressHost.parse regressPrior) 5 1 [] [] =
      Paged.done (fullPage 1 "2024-02-01") [1] := by decide
  have hfile1 : (fetchAndCacheRepos regressHost 5 regressPrior).file =
      some (CacheFile.snapshot
        { repositories := fullPage 1 "2024-02-01"
          last_updated := "2024-03-01T00:00:00.000Z"
          total_count := 100 }) := by
    rw [run_done regressHost 5 regressPrior _ _ (plentyHost_gate _) hl1]
    decide
  have hl2 : pageLoop regressHost (lastKnownUpdate regressHost.parse
      (some (CacheFile.snapshot
        { repositories := fullPage 1 "2024-02-01"
          last_updated := "2024-03-01T00:00:00.000Z"
          total_count := 100 }))) 5 1 [] [] =
      Paged.done (fullPage 1 "2024-02-01" ++ [mkRepo 101 "2024-01-01"]) [1, 2] := by decide
  refine ⟨?_, ?_⟩
  · rw [written_of_done regressHost 5 regressPrior _ _ (plentyHost_gate _) hl1]
    decide
  · rw [hfile1, written_of_done regressHost 5 _ _ _ (plentyHost_gate _) hl2]
    decide

/-- C6, as the code has it: a cycle in which zero records are fetched takes the replace
branch, whatever the prior snapshot, and writes the empty snapshot with `total_count`
0; zero records are fetched only when page 1 of the remote is empty, in which case
page 1 is the only page requested. -/
theorem empty_fetch_replaces (env : Env) (fuel : Nat) (file : Option CacheFile) (m : Nat)
    (h : (fetchAndCacheRepos env fuel file).outcome = Outcome.ok 0 m) :
    (fetchAndCacheRepos env fuel file).written =
        some { repositories := [], last_updated := env.now, total_count := 0 } ∧
      env.pages 1 = some [] ∧
      (fetchAndCacheRepos env fuel file).requested = [1] := by
  rcases bufferReached_cases env with hb | ⟨r, hr, hb⟩
  · cases hl : pageLoop env (lastKnownUpdate env.parse file) fuel 1 [] [] with
    | done F R =>
      rw [run_done env fuel file F R hb hl] at h ⊢
      simp only [Outcome.ok.injEq] at h
      obtain rfl : F = [] := List.length_eq_zero.1 h.1
      obtain ⟨hp, hR⟩ := pageLoop_done_nil env _ fuel R hl
      refine ⟨?_, hp, hR⟩
      simp [Run.written, finalRepos_nil]
    | threw R =>
      rw [run_proceeds env fuel file hb, hl] at h
      cases h
    | running R =>
      rw [run_proceeds env fuel file hb, hl] at h
      cases h
  · rw [run_skipped env fuel file r hr hb] at h
    cases h

/-- C6 on the scenario's prior snapshot and a remote whose page 1 is empty. -/
theorem empty_fetch_replaces_witness :
    (fetchAndCacheRepos (plentyHost []) 1 scenarioPrior).outcome = Outcome.ok 0 0 ∧
      (fetchAndCacheRepos (plentyHost []) 1 scenarioPrior).written =
        some { repositories := [], last_updated := (plentyHost []).now, total_count := 0 } ∧
      (plentyHost []).pages 1 = some [] ∧
      (fetchAndCacheRepos (plentyHost []) 1 scenarioPrior).requested = [1] := by
  have hout : (fetchAndCacheRepos (plentyHost []) 1 scenarioPrior).outcome = Outcome.ok 0 0 := by
    rw [run_done (plentyHost []) 1 scenarioPrior [] [1] (plentyHost_gate []) (by decide)]
    decide
  exact ⟨hout, empty_fetch_replaces (plentyHost []) 1 scenarioPrior 0 hout⟩

/-- C6 as stated fails: the scenario's prior snapshot has two records and a watermark;
the remote answers page 1 with no record; the cycle writes the empty snapshot with
`total_count` 0, and the two prior records are gone. -/
theorem empty_fetch_counterexample :
    existingRepositories scenarioPrior =
        some [mkRepo 1 "2024-01-01", mkRepo 2 "2024-01-05"] ∧
      truthyNum (lastKnownUpdate (plentyHost []).parse scenarioPrior) = true ∧
      fetchAndCacheRepos (plentyHost []) 1 scenarioPrior =
        { outcome := Outcome.ok 0 0
          file := some (CacheFile.snapshot
            { repositories := []
              last_updated := "2024-03-01T00:00:00.000Z"
              total_count := 0 })
          requested := [1] } := by
  refine ⟨rfl, by decide, ?_⟩
  rw [run_done (plentyHost []) 1 scenarioPrior [] [1] (plentyHost_gate []) (by decide)]
  decide

/-- C7, as the code has it: `lastKnownUpdate` is `null` when there is no readable
`repositories` array; otherwise it is the largest of 0 and the parsed activity
timestamps `Date.parse(updated_at || pushed_at || 0)` of the records: it is at least 0,
no parsed timestamp exceeds it, and it is 0 or the timestamp of some record. It
counts as no watermark exactly when no record has a parsed timestamp above 0, which
covers the empty snapshot and the snapshot whose timestamps are all unparsable. -/
theorem watermark_derivation (parse : String → Option Int) (file : Option CacheFile) :
    (existingRepositories file = none → lastKnownUpdate parse file = none) ∧
    (∀ repos, existingRepositories file = some repos →
      ∃ w, lastKnownUpdate parse file = some w ∧ 0 ≤ w ∧
        (∀ r ∈ repos, ∀ t, activityTs parse r = some t → t ≤ w) ∧
        (w = 0 ∨ ∃ r ∈ repos, activityTs parse r = some w) ∧
        (truthyNum (lastKnownUpdate parse file) = false ↔
          ∀ r ∈ repos, ∀ t, activityTs parse r = some t → t ≤ 0)) := by
  refine ⟨?_, ?_⟩
  · intro h
    simp [lastKnownUpdate, h]
  · intro repos h
    refine ⟨reduceWatermark parse repos, by simp [lastKnownUpdate, h],
      reduceWatermark_nonneg parse repos, reduceWatermark_upper parse repos,
      reduceWatermark_attained parse repos, ?_⟩
    rw [← reduceWatermark_eq_zero_iff]
    simp [lastKnownUpdate, h, truthyNum]

/-- C7 on the scenario's prior snapshot: the watermark is the timestamp of 2024-01-05,
the newer of its two records. -/
theorem watermark_derivation_witness :
    ∃ w, lastKnownUpdate isoParse scenarioPrior = some w ∧ 0 ≤ w ∧
      (∀ r ∈ [mkRepo 1 "2024-01-01", mkRepo 2 "2024-01-05"], ∀ t,
        activityTs isoParse r = some t → t ≤ w) ∧
      (w = 0 ∨ ∃ r ∈ [mkRepo 1 "2024-01-01", mkRepo 2 "2024-01-05"],
        activityTs isoParse r = some w) ∧
      (truthyNum (lastKnownUpdate isoParse scenarioPrior) = false ↔
        ∀ r ∈ [mkRepo 1 "2024-01-01", mkRepo 2 "2024-01-05"], ∀ t,
          activityTs isoParse r = some t → t ≤ 0) :=
  (watermark_derivation isoParse scenarioPrior).2 _ rfl

/-- C7 as stated fails: for a snapshot whose only record was updated at
1969-12-31T23:59:59Z the maximum parsed activity timestamp is -1000, and the code's
watermark is 0. -/
theorem watermark_derivation_counterexample :
    existingRepositories preEpochPrior = some [mkRepo 1 "1969-12-31T23:59:59Z"] ∧
      activityTs isoParse (mkRepo 1 "1969-12-31T23:59:59Z") = some (-1000) ∧
      lastKnownUpdate isoParse preEpochPrior = some 0 := by
  decide

/-- C8 fails on the code: with no prior snapshot and a remote that lists id 100 on both
pages, `fetchAndCacheRepos` writes 102 records and `total_count` 102, while the
written repositories hold 101 distinct ids; the bootstrap routine does the same. -/
theorem total_count_counts_duplicates :
    (∃ s, (fetchAndCacheRepos driftHost 2 none).written = some s ∧ s.total_count = 102 ∧
      (s.repositories.map Repo.id).dedup.length = 101) ∧
    (∃ s, initialFetch driftHost 2 none = some (CacheFile.snapshot s) ∧ s.total_count = 102 ∧
      (s.repositories.map Repo.id).dedup.length = 101) := by
  have hloop : pageLoop driftHost (lastKnownUpdate driftHost.parse none) 2 1 [] [] =
      Paged.done (fullPage 1 "2024-02-01" ++ [mkRepo 100 "2024-02-01", mkRepo 101 "2024-01-01"])
        [1, 2] := by decide
  refine ⟨⟨_, written_of_done driftHost 2 none _ _ (plentyHost_gate _) hloop, ?_, ?_⟩,
    ⟨_, rfl, ?_, ?_⟩⟩
  · decide
  · decide
  · decide
  · decide

/-- C9: early-stop completeness under recency ordering. Assume every page of the remote
is answered, every activity timestamp on it parses, no record of a later page is
newer than a record of an earlier page, and a page shorter than the page size is
followed by empty pages only. Then, whenever the pagination loop of
`fetchAndCacheRepos` stops, every remote record is either in the fetched list or
strictly older than the watermark; with no watermark every remote record is fetched. -/
theorem early_stop_complete (env : Env) (wm : Option Int) (fuel : Nat) (F : List Repo)
    (R : List Nat)
    (hloop : pageLoop env wm fuel 1 [] [] = Paged.done F R)
    (hparse : ∀ p data r, 1 ≤ p → env.pages p = some data → r ∈ data →
      ∃ t, activityTs env.parse r = some t)
    (horder : ∀ p q dp dq r s tr ts, 1 ≤ p → p < q → env.pages p = some dp →
      env.pages q = some dq → r ∈ dp → s ∈ dq → activityTs env.parse r = some tr →
      activityTs env.parse s = some ts → ts ≤ tr)
    (hshort : ∀ p q dp dq, 1 ≤ p → p < q → env.pages p = some dp → dp.length < 100 →
      env.pages q = some dq → dq = []) :
    ∀ p data r, 1 ≤ p → env.pages p = some data → r ∈ data →
      r ∈ F ∨ ∃ T t, wm = some T ∧ T ≠ 0 ∧ activityTs env.parse r = some t ∧ t < T := by
  obtain ⟨n, dN, _, _, hdN, hs, hF, _⟩ := pageLoop_done_last env wm fuel F R hloop
  intro p data r hp hdata hr
  by_cases hpn : p ≤ 1 + n
  · left
    rw [hF, ← pagesFrom_succ_right env 1 n dN hdN]
    exact mem_pagesFrom env 1 (n + 1) p data r hdata hp (by omega) hr
  · right
    have hlt : 1 + n < p := by omega
    rcases stopRule_true_cases env.parse wm dN hs with hlen | ⟨T, last, t, hT, hT0, hlast, hts, htT⟩
    · have := hshort (1 + n) p dN data (by omega) hlt hdN hlen hdata
      subst this
      cases hr
    · obtain ⟨tr, htr⟩ := hparse p data r hp hdata hr
      have hmem : last ∈ dN := List.mem_of_getLast?_eq_some hlast
      have := horder (1 + n) p dN data last r t tr (by omega) hlt hdN hdata hmem hr hts htr
      exact ⟨T, tr, hT, hT0, htr, by omega⟩

/-- C9 on the three-page remote with the watermark 2024-01-05: the loop stops after
page 2, and the one record it did not fetch, of 2023-12-01, is older than the
watermark. -/
theorem early_stop_complete_witness :
    pageLoop (plentyHost threePages) (some 1704412800000) 5 1 [] [] =
        Paged.done (fullPage 1 "2024-02-01" ++ fullPage 101 "2024-01-01") [1, 2] ∧
      ∀ p data r, 1 ≤ p → (plentyHost threePages).pages p = some data → r ∈ data →
        r ∈ fullPage 1 "2024-02-01" ++ fullPage 101 "2024-01-01" ∨
          ∃ T t, some (1704412800000 : Int) = some T ∧ T ≠ 0 ∧
            activityTs (plentyHost threePages).parse r = some t ∧ t < T := by
  have hloop : pageLoop (plentyHost threePages) (some 1704412800000) 5 1 [] [] =
      Paged.done (fullPage 1 "2024-02-01" ++ fullPage 101 "2024-01-01") [1, 2] := by decide
  refine ⟨hloop, early_stop_complete (plentyHost threePages) (some 1704412800000) 5 _ _ hloop
    ?_ ?_ ?_⟩
  · intro p data r hp hdata hr
    rcases threePages_ts p data r hp hdata hr with ⟨_, h⟩ | ⟨_, h⟩ | ⟨_, h⟩ <;> exact ⟨_, h⟩
  · intro p q dp dq r s tr ts hp hpq hdp hdq hr hs htr hts
    have hr1 : activityTs isoParse r = some tr := htr
    have hs1 : activityTs isoParse s = some ts := hts
    rcases threePages_ts p dp r hp hdp hr with ⟨h1, h⟩ | ⟨h1, h⟩ | ⟨h1, h⟩ <;>
      rcases threePages_ts q dq s (by omega) hdq hs with ⟨h2, g⟩ | ⟨h2, g⟩ | ⟨h2, g⟩ <;>
      rw [hr1] at h <;> rw [hs1] at g <;>
      simp only [Option.some.injEq] at h g <;> omega
  · intro p q dp dq hp hpq hdp hlen hdq
    rcases threePages_cases p dp hp hdp with ⟨h1, rfl⟩ | ⟨h1, rfl⟩ | ⟨h1, rfl⟩ | ⟨h1, rfl⟩
    · simp [fullPage] at hlen
    · simp [fullPage] at hlen
    · rcases threePages_cases q dq (by omega) hdq with ⟨h2, _⟩ | ⟨h2, _⟩ | ⟨h2, _⟩ | ⟨_, h2⟩
      · omega
      · omega
      · omega
      · exact h2
    · rcases threePages_cases q dq (by omega) hdq with ⟨h2, _⟩ | ⟨h2, _⟩ | ⟨h2, _⟩ | ⟨_, h2⟩
      · omega
      · omega
      · omega
      · exact h2

/-- C10: a truncated fetch never triggers a full replace. For every successful cycle of
`fetchAndCacheRepos` whose last fetched page holds at least the page size of records
(so the loop stopped by the watermark rule), the delta-merge branch is taken: the
written repositories are the delta merge of the prior list and the fetched list, and
every prior id is present among them. Hence a prior id is missing from the written
snapshot only if the last fetched page was shorter than the page size. -/
theorem truncated_fetch_merges (env : Env) (fuel : Nat) (file : Option CacheFile)
    (F : List Repo) (R : List Nat) (N : Nat) (data : List Repo)
    (hgate : bufferReached env (getRateLimit env) = false)
    (hloop : pageLoop env (lastKnownUpdate env.parse file) fuel 1 [] [] = Paged.done F R)
    (hlast : R.getLast? = some N) (hdata : env.pages N = some data) :
    (perPage ≤ data.length →
      ∃ prior s, existingRepositories file = some prior ∧
        mergeCondition (some prior) F (lastKnownUpdate env.parse file) = true ∧
        (fetchAndCacheRepos env fuel file).written = some s ∧
        s.repositories = deltaMerge prior F ∧
        ∀ r ∈ prior, r.id ∈ s.repositories.map Repo.id) ∧
    (∀ prior s r, existingRepositories file = some prior →
      (fetchAndCacheRepos env fuel file).written = some s → r ∈ prior →
      r.id ∉ s.repositories.map Repo.id → data.length < perPage) := by
  have key : perPage ≤ data.length →
      ∃ prior s, existingRepositories file = some prior ∧
        mergeCondition (some prior) F (lastKnownUpdate env.parse file) = true ∧
        (fetchAndCacheRepos env fuel file).written = some s ∧
        s.repositories = deltaMerge prior F ∧
        ∀ r ∈ prior, r.id ∈ s.repositories.map Repo.id := by
    intro hfull
    obtain ⟨n, d, _, hlast1, hd, hs, hF, _⟩ := pageLoop_done_last env _ fuel F R hloop
    rw [hlast] at hlast1
    simp only [Option.some.injEq] at hlast1
    subst hlast1
    rw [hdata] at hd
    simp only [Option.some.injEq] at hd
    subst hd
    have htruthy := truthy_of_full_stop env.parse _ data hs hfull
    obtain ⟨prior, hprior, hne⟩ := prior_of_truthy env.parse file htruthy
    have hFne : F ≠ [] := by
      rintro rfl
      have hnil := (List.append_eq_nil.1 hF.symm).2
      subst hnil
      unfold perPage at hfull
      simp at hfull
    have hfin := finalRepos_merge prior F _ hne hFne htruthy
    refine ⟨prior, _, hprior, ?_, written_of_done env fuel file F R hgate hloop, ?_, ?_⟩
    · have h1 : prior.length ≠ 0 := fun h => hne (List.length_eq_zero.1 h)
      have h2 : F.length ≠ 0 := fun h => hFne (List.length_eq_zero.1 h)
      simp [mergeCondition, h1, h2, htruthy]
    · simp only [hprior]
      exact hfin
    · intro r hr
      simp only [hprior]
      rw [hfin, deltaMerge_mem_ids]
      exact Or.inl (List.mem_map_of_mem _ hr)
  refine ⟨key, ?_⟩
  intro prior s r hprior hs hr hmiss
  by_contra hlen
  obtain ⟨prior1, s1, hprior1, _, hs1, _, hall⟩ := key (by omega)
  rw [hprior] at hprior1
  simp only [Option.some.injEq] at hprior1
  subst hprior1
  rw [hs] at hs1
  simp only [Option.some.injEq] at hs1
  subst hs1
  exact hmiss (hall r hr)

/-- C10 on the three-page remote with a prior snapshot of 2024-01-05: the loop stops on
page 2, a full page, and the prior ids 150 and 999 are both in the written snapshot. -/
theorem truncated_fetch_merges_witness :
    ∃ prior s, existingRepositories januaryPrior = some prior ∧
      mergeCondition (some prior) (fullPage 1 "2024-02-01" ++ fullPage 101 "2024-01-01")
        (lastKnownUpdate (plentyHost threePages).parse januaryPrior) = true ∧
      (fetchAndCacheRepos (plentyHost threePages) 5 januaryPrior).written = some s ∧
      s.repositories =
        deltaMerge prior (fullPage 1 "2024-02-01" ++ fullPage 101 "2024-01-01") ∧
      ∀ r ∈ prior, r.id ∈ s.repositories.map Repo.id :=
  (truncated_fetch_merges (plentyHost threePages) 5 januaryPrior
    (fullPage 1 "2024-02-01" ++ fullPage 101 "2024-01-01") [1, 2] 2
    (fullPage 101 "2024-01-01") (plentyHost_gate _) (by decide) rfl rfl).1 (by decide)

end RepoVisualizer
